import Mathlib

/-!
# Basic JIT code cache of `vm_basic_jit.c`

A shallow embedding of the free-list allocator, the permission togglers and the
copy-and-patch compiler of `vm_basic_jit.c`, followed by theorems about them.

Conventions of the embedding.

* Addresses, sizes and opcodes are natural numbers.  Arithmetic the source does in
  `size_t` is reduced modulo `SIZE_MOD`; a pointer difference (`end - beg`) is an
  integer.  The loop index `i` indexes an in-memory array and is kept unreduced.
* A linked list in memory (`next` links) is a Lean list of its nodes, each
  carrying its own address; the pool of regions is the list of regions in `next`
  order, and a pointer to a region is its position in that list.
* A `while` loop is a function with a fuel argument; `none` means that no defined
  result was produced (fuel ran out, or the C code read outside an array or
  dereferenced a null pointer).
-/

namespace BasicJit

/-! ## Types and constants the source uses but does not define -/

/-- What the translation unit takes from its environment: the sizes `sizeof`
yields, the instruction count and length function of the interpreter, and the
return value of the `mprotect` system call for given arguments. -/
structure Env where
  /-- The value of `sizeof(size_t)`, which is also `sizeof(struct rb_jit_code_chunk)`. -/
  sizeof_size_t : Nat
  /-- The value of `sizeof(struct rb_jit_code_chunk *)`. -/
  sizeof_ptr : Nat
  /-- The macro `VM_INSTRUCTION_SIZE`: number of opcodes. -/
  VM_INSTRUCTION_SIZE : Nat
  /-- The function `insn_len`: number of slots an instruction occupies. -/
  insn_len : Nat → Nat
  /-- Return value of `mprotect(start, size, prot)`; `0` is success. -/
  mprotect : Nat → Nat → Nat → Int

/-- Number of values of `size_t`. -/
def Env.SIZE_MOD (E : Env) : Nat := 2 ^ (8 * E.sizeof_size_t)

/-- The value of `sizeof(struct rb_jit_code_chunk)`: a struct of one `size_t`. -/
def Env.sizeof_chunk (E : Env) : Nat := E.sizeof_size_t

/-- The protection bit `PROT_READ`. -/
def PROT_READ : Nat := 1
/-- The protection bit `PROT_WRITE`. -/
def PROT_WRITE : Nat := 2
/-- The protection bit `PROT_EXEC`. -/
def PROT_EXEC : Nat := 4

/-! ## Data model (lines 2-15) -/

/-- A free-list node `struct rb_jit_free_list`, stored at `addr`; `next` is the
rest of the list it is an element of. -/
structure rb_jit_free_list where
  addr : Nat
  size : Nat
deriving DecidableEq, Repr

/-- A region `struct rb_jit_code_cache`; `next` is the rest of the pool.  The
togglers read `cache->start`, so the field is part of the model. -/
structure rb_jit_code_cache where
  start : Nat
  size : Nat
  free_list : List rb_jit_free_list
deriving DecidableEq, Repr

/-- A chunk header `struct rb_jit_code_chunk`, stored at `addr`. -/
structure rb_jit_code_chunk where
  addr : Nat
  size : Nat
deriving DecidableEq, Repr

/-- The fields of `rb_iseq_t` the subsystem touches; `jit_compiled_iseq = 0` is
the null pointer. -/
structure rb_iseq_t where
  iseq : List Nat
  iseq_size : Nat
  jit_compiled_iseq : Nat
deriving DecidableEq, Repr

/-- An effect on the outside world. -/
inductive Event where
  | mprotect (start size prot : Nat) (rc : Int)
  | memcpy (dst src n : Nat)
deriving DecidableEq, Repr

/-- Process state: the pool `vm->jit_code_cache`, the chunk headers written so
far, byte memory, page protection per address, and the effects so far. -/
structure Machine where
  jit_code_cache : List rb_jit_code_cache
  chunks : List rb_jit_code_chunk
  mem : Nat → Nat
  prot : Nat → Nat
  trace : List Event

/-- How a call ends: it returns a value, or `rb_sys_fail` raises. -/
inductive Outcome where
  | returned (rc : Int)
  | sys_fail
deriving DecidableEq, Repr

/-! ## Permission togglers (lines 17-31) -/

/-- Page protections after every address of `[start, start + size)` got
protection `p`. -/
def set_prot (prot : Nat → Nat) (start size p : Nat) : Nat → Nat :=
  fun a => if start ≤ a ∧ a < start + size then p else prot a

/-- The system call `mprotect`: on success every address of the range gets the
requested protection; the call and its return value are recorded. -/
def sys_mprotect (E : Env) (M : Machine) (start size prot : Nat) : Int × Machine :=
  let rc := E.mprotect start size prot
  (rc, { M with
    prot := if rc = 0 then set_prot M.prot start size prot else M.prot
    trace := M.trace ++ [Event.mprotect start size prot rc] })

/-- Modelled from the spec: `rb_sys_fail` is not in the source file; it is the
fatal-error primitive, which raises and does not return to its caller.  The
error case carries the state at the raise. -/
def rb_sys_fail (M : Machine) : Except Machine Machine := Except.error M

/-- Lines 17-23. -/
def enable_execution_in_jit_code_cache (E : Env) (M : Machine)
    (cache : rb_jit_code_cache) : Except Machine Machine :=
  match sys_mprotect E M cache.start cache.size (PROT_READ ||| PROT_EXEC) with
  | (rc, M1) => if rc ≠ 0 then rb_sys_fail M1 else Except.ok M1

/-- Lines 25-31. -/
def enable_write_in_jit_code_cache (E : Env) (M : Machine)
    (cache : rb_jit_code_cache) : Except Machine Machine :=
  match sys_mprotect E M cache.start cache.size (PROT_READ ||| PROT_WRITE) with
  | (rc, M1) => if rc ≠ 0 then rb_sys_fail M1 else Except.ok M1

/-! ## Allocator (lines 42-72) -/

/-- The inner loop, lines 53-67, over the nodes from `*free_list_ptr` on.  The
result is the chunk header written at the selected node and the list that
`*free_list_ptr` heads afterwards.  The chunk header lies on the node's `size`
field, so where the node stays linked (line 57) the store of line 61 changes
the size the node shows. -/
def scan_free_list (E : Env) (size : Nat) :
    List rb_jit_free_list → Option (rb_jit_code_chunk × List rb_jit_free_list)
  | [] => none
  | free_list :: next =>
    if free_list.size ≥ size then
      let chunk : rb_jit_code_chunk :=
        { addr := free_list.addr, size := (size + E.sizeof_ptr) % E.SIZE_MOD }
      if free_list.size > (size + E.sizeof_chunk) % E.SIZE_MOD then
        some (chunk, { free_list with size := chunk.size } :: next)
      else
        some (chunk, next)
    else
      match scan_free_list E size next with
      | none => none
      | some (chunk, next1) => some (chunk, free_list :: next1)

/-- The outer loop, lines 50-69, over the regions from `cache` on.  The result
is the position of the region returned, the chunk header written, and the
regions afterwards. -/
def scan_caches (E : Env) (size : Nat) :
    List rb_jit_code_cache → Option (Nat × rb_jit_code_chunk × List rb_jit_code_cache)
  | [] => none
  | cache :: next =>
    match scan_free_list E size cache.free_list with
    | some (chunk, fl) => some (0, chunk, { cache with free_list := fl } :: next)
    | none =>
      match scan_caches E size next with
      | none => none
      | some (k, chunk, next1) => some (k + 1, chunk, cache :: next1)

/-- What a call of the allocator leaves behind. -/
structure Alloc where
  /-- The returned region, as a position in the pool; `none` is the null pointer. -/
  ret : Option Nat
  /-- The pool after the call. -/
  pool : List rb_jit_code_cache
  /-- The unit after the call. -/
  iseq : rb_iseq_t
  /-- The chunk header stored by line 61, if the line was reached. -/
  chunk : Option rb_jit_code_chunk
deriving DecidableEq, Repr

/-- Lines 42-72. -/
def rb_iseq_allocate_jit_compiled_iseq (E : Env) (pool : List rb_jit_code_cache)
    (iseq : rb_iseq_t) (size : Nat) : Alloc :=
  if size = 0 then
    { ret := none, pool := pool, iseq := iseq, chunk := none }
  else
    match scan_caches E size pool with
    | some (k, chunk, pool1) =>
      { ret := some k, pool := pool1,
        iseq := { iseq with jit_compiled_iseq := chunk.addr + E.sizeof_chunk },
        chunk := some chunk }
    | none => { ret := none, pool := pool, iseq := iseq, chunk := none }

/-! ## Compiler (lines 74-121) -/

/-- Lines 81-85 and 108-112: the bounds `beg`, `end` of the template of `insn`.
The table is an array; a read outside it has no defined result. -/
def template_bounds (E : Env) (insns_address_table : List Nat) (end_insns : Nat)
    (insn : Nat) : Option (Nat × Nat) :=
  match insns_address_table[insn]? with
  | none => none
  | some beg =>
    if insn + 1 < E.VM_INSTRUCTION_SIZE then
      match insns_address_table[insn + 1]? with
      | none => none
      | some e => some (beg, e)
    else some (beg, end_insns)

/-- The statement `size += end - beg` in `size_t`. -/
def size_add (E : Env) (size : Nat) (d : Int) : Nat :=
  (((size : Int) + d) % (E.SIZE_MOD : Int)).toNat

/-- The loop of lines 79-89, from index `i` with accumulator `size`. -/
def compiled_size_loop (E : Env) (iseq : rb_iseq_t) (insns_address_table : List Nat)
    (end_insns : Nat) : Nat → Nat → Nat → Option Nat
  | 0, i, size => if i < iseq.iseq_size then none else some size
  | fuel + 1, i, size =>
    if i < iseq.iseq_size then
      match iseq.iseq[i]? with
      | none => none
      | some insn =>
        match template_bounds E insns_address_table end_insns insn with
        | none => none
        | some (beg, e) =>
          compiled_size_loop E iseq insns_address_table end_insns fuel
            (i + E.insn_len insn) (size_add E size ((e : Int) - (beg : Int)))
    else some size

/-- Lines 74-91. -/
def rb_iseq_jit_compiled_size (E : Env) (fuel : Nat) (iseq : rb_iseq_t)
    (insns_address_table : List Nat) (end_insns : Nat) : Option Nat :=
  compiled_size_loop E iseq insns_address_table end_insns fuel 0 0

/-- The library function `memcpy` on byte memory: the `n` bytes from `src` on
appear from `dst` on. -/
def memcpy (mem : Nat → Nat) (dst src n : Nat) : Nat → Nat :=
  fun a => if dst ≤ a ∧ a < dst + n then mem (src + (a - dst)) else mem a

/-- The loop of lines 106-117, from index `i` with output cursor `code`.  A
template whose end lies before its start has no defined copy (`memcpy` would be
asked for more than half the address space). -/
def copy_loop (E : Env) (iseq : rb_iseq_t) (insns_address_table : List Nat)
    (end_insns : Nat) : Nat → Nat → Nat → Machine → Option (Nat × Machine)
  | 0, i, code, M => if i < iseq.iseq_size then none else some (code, M)
  | fuel + 1, i, code, M =>
    if i < iseq.iseq_size then
      match iseq.iseq[i]? with
      | none => none
      | some insn =>
        match template_bounds E insns_address_table end_insns insn with
        | none => none
        | some (beg, e) =>
          if e < beg then none
          else
            copy_loop E iseq insns_address_table end_insns fuel
              (i + E.insn_len insn) (code + (e - beg))
              { M with
                mem := memcpy M.mem code beg (e - beg)
                trace := M.trace ++ [Event.memcpy code beg (e - beg)] }
    else some (code, M)

/-- Lines 93-121.  The result is how the call ends, the process state and the
unit at that point.  The stores of the allocator call of line 97 (the unlink of
line 59, the chunk header of line 61) show as the new pool and the new entry
of `chunks`; they are not effects of `trace` and are not checked against
`prot`, so this is the run of the code from states in which the page of the
chunk header is writable (`header_store_allowed`). -/
def rb_iseq_jit_compile (E : Env) (fuel : Nat) (M : Machine) (iseq : rb_iseq_t)
    (insns_address_table : List Nat) (end_insns : Nat) :
    Option (Outcome × Machine × rb_iseq_t) :=
  match rb_iseq_jit_compiled_size E fuel iseq insns_address_table end_insns with
  | none => none
  | some size =>
    let r := rb_iseq_allocate_jit_compiled_iseq E M.jit_code_cache iseq size
    let M1 : Machine :=
      { M with jit_code_cache := r.pool, chunks := M.chunks ++ r.chunk.toList }
    let code := r.iseq.jit_compiled_iseq
    if code = 0 then some (Outcome.returned (-1), M1, r.iseq)
    else
      match r.ret.bind (fun k => r.pool[k]?) with
      | none => none
      | some cache =>
        match enable_write_in_jit_code_cache E M1 cache with
        | Except.error M2 => some (Outcome.sys_fail, M2, r.iseq)
        | Except.ok M2 =>
          match copy_loop E r.iseq insns_address_table end_insns fuel 0 code M2 with
          | none => none
          | some (_, M3) =>
            match enable_execution_in_jit_code_cache E M3 cache with
            | Except.error M4 => some (Outcome.sys_fail, M4, r.iseq)
            | Except.ok M4 => some (Outcome.returned 0, M4, r.iseq)

/-! ## Dispatcher (lines 123-165) -/

/-- How `vm_exec_jit` leaves the shown code: it returns a value, `rb_sys_fail`
raises inside the compile, or the computed `goto` of line 155 transfers control
to `target`. -/
inductive Control where
  | returned (rc : Int)
  | sys_fail
  | jumped (target : Nat)
deriving DecidableEq, Repr

/-- What a call of `vm_exec_jit` leaves behind. -/
structure Dispatch where
  /-- How the call leaves the shown code. -/
  outcome : Control
  /-- Number of calls of `rb_iseq_jit_compile` the call made. -/
  compiles : Nat
  /-- The process state at that point. -/
  M : Machine
  /-- The unit `th->cfp->iseq` at that point. -/
  iseq : rb_iseq_t

/-- Lines 145-155, for the unit `th->cfp->iseq`; the table is the one of
`vmtc.inc` and `end_insns` is `LABEL_PTR(__END__)`. -/
def vm_exec_jit (E : Env) (fuel : Nat) (M : Machine) (iseq : rb_iseq_t)
    (insns_address_table : List Nat) (end_insns : Nat) : Option Dispatch :=
  if iseq.jit_compiled_iseq = 0 then
    match rb_iseq_jit_compile E fuel M iseq insns_address_table end_insns with
    | none => none
    | some (Outcome.sys_fail, M1, iseq1) =>
      some { outcome := Control.sys_fail, compiles := 1, M := M1, iseq := iseq1 }
    | some (Outcome.returned rc, M1, iseq1) =>
      if rc ≠ 0 then
        some { outcome := Control.returned (-1), compiles := 1, M := M1, iseq := iseq1 }
      else
        some { outcome := Control.jumped iseq1.jit_compiled_iseq, compiles := 1,
               M := M1, iseq := iseq1 }
  else
    some { outcome := Control.jumped iseq.jit_compiled_iseq, compiles := 0,
           M := M, iseq := iseq }

/-! ## The walk over a unit, as the specification words it -/

/-- The opcode stored at slot `i` of the unit. -/
def opcode_at (iseq : rb_iseq_t) (i : Nat) : Nat := iseq.iseq.getD i 0

/-- The instruction starts met from index `i` in at most `n` steps: `i` itself
while it is below `iseq_size`, then the start `insn_len` slots further on. -/
def starts_from (E : Env) (iseq : rb_iseq_t) : Nat → Nat → List Nat
  | 0, _ => []
  | n + 1, i =>
    if i < iseq.iseq_size then
      i :: starts_from E iseq n (i + E.insn_len (opcode_at iseq i))
    else []

/-- The instruction starts of a unit: index 0, then each next index is the
previous index plus the length of the instruction there, while the index is
below `iseq_size`. -/
def instruction_starts (E : Env) (iseq : rb_iseq_t) : List Nat :=
  starts_from E iseq iseq.iseq_size 0

/-- Template length of opcode `k`: the next opcode's start minus its own start,
or the end sentinel minus its own start for the last opcode of the table. -/
def template_length (E : Env) (table : List Nat) (end_insns : Nat) (k : Nat) : Int :=
  if k + 1 < E.VM_INSTRUCTION_SIZE then (table.getD (k + 1) 0 : Int) - (table.getD k 0 : Int)
  else (end_insns : Int) - (table.getD k 0 : Int)

/-- Sum of the template lengths of the instructions at the given starts. -/
def sum_template_lengths (E : Env) (iseq : rb_iseq_t) (table : List Nat) (end_insns : Nat)
    (starts : List Nat) : Int :=
  (starts.map (fun i => template_length E table end_insns (opcode_at iseq i))).sum

/-- Slot `i` holds an opcode of the interpreter whose instruction has at least
one slot. -/
def valid_start (E : Env) (iseq : rb_iseq_t) (i : Nat) : Prop :=
  i < iseq.iseq.length ∧ opcode_at iseq i < E.VM_INSTRUCTION_SIZE ∧
    1 ≤ E.insn_len (opcode_at iseq i)

instance (E : Env) (iseq : rb_iseq_t) (i : Nat) : Decidable (valid_start E iseq i) := by
  unfold valid_start; infer_instance

/-- Number of bytes of the template of opcode `k`. -/
def template_size (E : Env) (table : List Nat) (end_insns : Nat) (k : Nat) : Nat :=
  (template_length E table end_insns k).toNat

/-- Total number of template bytes of the instructions at the given starts. -/
def copied_bytes (E : Env) (iseq : rb_iseq_t) (table : List Nat) (end_insns : Nat)
    (starts : List Nat) : Nat :=
  (starts.map (fun i => template_size E table end_insns (opcode_at iseq i))).sum

/-- The copies the specification asks for: one per instruction, in bytecode
order, of the whole template, each to the position right after the previous
copy, the first to `code`. -/
def copies_from (E : Env) (iseq : rb_iseq_t) (table : List Nat) (end_insns : Nat) :
    Nat → List Nat → List Event
  | _, [] => []
  | code, i :: rest =>
    Event.memcpy code (table.getD (opcode_at iseq i) 0)
        (template_size E table end_insns (opcode_at iseq i)) ::
      copies_from E iseq table end_insns
        (code + template_size E table end_insns (opcode_at iseq i)) rest

/-- Byte memory after the given effects, in order. -/
def run_copies : (Nat → Nat) → List Event → Nat → Nat
  | mem, [] => mem
  | mem, Event.memcpy dst src n :: evs => run_copies (memcpy mem dst src n) evs
  | mem, Event.mprotect _ _ _ _ :: evs => run_copies mem evs

/-- The `n` bytes of memory from address `a` on. -/
def read_bytes (mem : Nat → Nat) (a n : Nat) : List Nat :=
  (List.range n).map (fun k => mem (a + k))

/-- The concatenation, in bytecode order, of the template bytes of the
instructions at the given starts, read from `mem`. -/
def expected_payload (E : Env) (iseq : rb_iseq_t) (table : List Nat) (end_insns : Nat)
    (mem : Nat → Nat) : List Nat → List Nat
  | [] => []
  | i :: rest =>
    read_bytes mem (table.getD (opcode_at iseq i) 0)
        (template_size E table end_insns (opcode_at iseq i)) ++
      expected_payload E iseq table end_insns mem rest

/-- Number of bytes written by the copies among the effects. -/
def bytes_written : List Event → Nat
  | [] => 0
  | Event.memcpy _ _ n :: evs => n + bytes_written evs
  | Event.mprotect _ _ _ _ :: evs => bytes_written evs

/-- The effects are copies and nothing else, the first to `pos`, each next one
to the address where the one before it ended, the last one ending at `fin`. -/
def consecutive_copies : Nat → List Event → Nat → Prop
  | pos, [], fin => pos = fin
  | pos, Event.memcpy dst _ n :: evs, fin => dst = pos ∧ consecutive_copies (pos + n) evs fin
  | _, Event.mprotect _ _ _ _ :: _, _ => False

/-- The effect is a copy. -/
def is_memcpy : Event → Bool
  | Event.memcpy _ _ _ => true
  | Event.mprotect _ _ _ _ => false

/-! ## Protection modes, as the specification words them -/

/-- Protection `p` allows writing. -/
def writable (p : Nat) : Prop := p &&& PROT_WRITE ≠ 0

/-- Protection `p` allows execution. -/
def executable (p : Nat) : Prop := p &&& PROT_EXEC ≠ 0

instance (p : Nat) : Decidable (writable p) := by unfold writable; infer_instance

instance (p : Nat) : Decidable (executable p) := by unfold executable; infer_instance

/-- The chunk-header store of line 61, if the allocator call made one, goes to
a page that is writable under `prot`. -/
def header_store_allowed (prot : Nat → Nat) (r : Alloc) : Prop :=
  match r.chunk with
  | none => True
  | some c => writable (prot c.addr)

instance (prot : Nat → Nat) (r : Alloc) : Decidable (header_store_allowed prot r) := by
  unfold header_store_allowed
  split <;> infer_instance

/-! ## The pool, as the specification words it -/

/-- The free-list nodes of a pool in search order: pool order, then free-list
order. -/
def all_nodes : List rb_jit_code_cache → List rb_jit_free_list
  | [] => []
  | cache :: next => cache.free_list ++ all_nodes next

/-- No node of any region of the pool can hold `size` bytes. -/
def no_fit (size : Nat) (pool : List rb_jit_code_cache) : Prop :=
  ∀ c ∈ pool, ∀ m ∈ c.free_list, m.size < size

instance (size : Nat) (pool : List rb_jit_code_cache) : Decidable (no_fit size pool) := by
  unfold no_fit; infer_instance

/-- The value of `sizeof(struct rb_jit_free_list)`: a `size_t` and a pointer,
the node header in front of the bytes a node's `size` counts. -/
def Env.sizeof_free_list (E : Env) : Nat := E.sizeof_size_t + E.sizeof_ptr

/-- Every free node of the region, header and counted bytes, lies inside the
region's block. -/
def nodes_in_region (E : Env) (cache : rb_jit_code_cache) : Prop :=
  ∀ m ∈ cache.free_list,
    cache.start ≤ m.addr ∧ m.addr + E.sizeof_free_list + m.size ≤ cache.start + cache.size

instance (E : Env) (cache : rb_jit_code_cache) : Decidable (nodes_in_region E cache) := by
  unfold nodes_in_region; infer_instance

/-- Number of iterations of the inner loop, lines 53-67, over the nodes from
`*free_list_ptr` on: one per node examined by line 54. -/
def scan_free_list_steps (size : Nat) : List rb_jit_free_list → Nat
  | [] => 0
  | free_list :: next =>
    if free_list.size ≥ size then 1 else 1 + scan_free_list_steps size next

/-- Number of nodes examined by the search of lines 50-69 over the regions from
`cache` on: the search goes to the next region only when the inner loop found
nothing. -/
def scan_caches_steps (E : Env) (size : Nat) : List rb_jit_code_cache → Nat
  | [] => 0
  | cache :: next =>
    match scan_free_list E size cache.free_list with
    | some _ => scan_free_list_steps size cache.free_list
    | none => scan_free_list_steps size cache.free_list + scan_caches_steps E size next

/-! ## Concrete inputs -/

/-- A 64-bit environment with three opcodes of lengths 2, 1 and 3, in which every
`mprotect` succeeds. -/
def env64 : Env where
  sizeof_size_t := 8
  sizeof_ptr := 8
  VM_INSTRUCTION_SIZE := 3
  insn_len := fun k => if k = 0 then 2 else if k = 1 then 1 else 3
  mprotect := fun _ _ _ => 0

/-- Template table of `env64`: opcode bodies at 100, 110 and 125. -/
def table3 : List Nat := [100, 110, 125]

/-- A unit of three instructions: opcode 0 with operand 999, opcode 2 with
operands 77 and 78, opcode 1. -/
def unit3 : rb_iseq_t where
  iseq := [0, 999, 2, 77, 78, 1]
  iseq_size := 6
  jit_compiled_iseq := 0

/-- A pool of one region whose free list has nodes of sizes 32, 128 and 64. -/
def pool3 : List rb_jit_code_cache :=
  [{ start := 4096, size := 4096,
     free_list := [⟨4096, 32⟩, ⟨4200, 128⟩, ⟨4400, 64⟩] }]

/-- A process state over `pool3`: the byte at address `a` is `a % 256`, every
page is readable and executable, nothing has happened yet. -/
def machine0 : Machine where
  jit_code_cache := pool3
  chunks := []
  mem := fun a => a % 256
  prot := fun _ => PROT_READ ||| PROT_EXEC
  trace := []

/-- A pool of one region with a single free node of 100 bytes. -/
def pool1 : List rb_jit_code_cache :=
  [{ start := 4096, size := 4096, free_list := [⟨4096, 100⟩] }]

/-- The state `machine0` over a pool whose nodes have 32 and 40 bytes. -/
def machine_small : Machine :=
  { machine0 with
    jit_code_cache :=
      [{ start := 4096, size := 4096, free_list := [⟨4096, 32⟩, ⟨4200, 40⟩] }] }

/-- The environment `env64` in which making pages writable is refused. -/
def env_write_refused : Env :=
  { env64 with
    mprotect := fun _ _ prot => if prot = PROT_READ ||| PROT_WRITE then -1 else 0 }

/-- The environment `env64` in which making pages executable is refused. -/
def env_exec_refused : Env :=
  { env64 with
    mprotect := fun _ _ prot => if prot = PROT_READ ||| PROT_EXEC then -1 else 0 }

/-- The region of `pool3` after 50 bytes were allocated from it. -/
def region3_after : rb_jit_code_cache :=
  { start := 4096, size := 4096,
    free_list := [⟨4096, 32⟩, ⟨4200, 58⟩, ⟨4400, 64⟩] }

/-- A unit with no instructions and no compiled code. -/
def unit_empty : rb_iseq_t where
  iseq := []
  iseq_size := 0
  jit_compiled_iseq := 0

/-- A template table of `env64` whose second opcode body ends before it starts:
bodies at 100, 130 and 120. -/
def table_desc : List Nat := [100, 130, 120]

/-- A unit of two instructions: opcode 0 with operand 7, opcode 1. -/
def unit_desc : rb_iseq_t where
  iseq := [0, 7, 1]
  iseq_size := 3
  jit_compiled_iseq := 0

/-- The state `machine0` with every page readable and writable, as for regions
just created. -/
def machine_fresh : Machine :=
  { machine0 with prot := fun _ => PROT_READ ||| PROT_WRITE }

/-- The state `machine_fresh` over a pool of one region with nodes of 50 and 56
bytes. -/
def machine_two : Machine :=
  { machine_fresh with
    jit_code_cache :=
      [{ start := 4096, size := 4096, free_list := [⟨4200, 50⟩, ⟨4400, 56⟩] }] }

/-! ## Lemmas on the walks -/

theorem SIZE_MOD_pos (E : Env) : 0 < E.SIZE_MOD := by
  unfold Env.SIZE_MOD; positivity

theorem size_add_lt (E : Env) (size : Nat) (d : Int) : size_add E size d < E.SIZE_MOD := by
  unfold size_add
  have hpos : (0 : Int) < (E.SIZE_MOD : Int) := by exact_mod_cast SIZE_MOD_pos E
  have h1 := Int.emod_lt_of_pos ((size : Int) + d) hpos
  have h2 := Int.emod_nonneg ((size : Int) + d) (ne_of_gt hpos)
  omega

theorem size_add_size_add (E : Env) (size : Nat) (d1 d2 : Int) :
    size_add E (size_add E size d1) d2 = size_add E size (d1 + d2) := by
  unfold size_add
  have hpos : (0 : Int) < (E.SIZE_MOD : Int) := by exact_mod_cast SIZE_MOD_pos E
  have h2 := Int.emod_nonneg ((size : Int) + d1) (ne_of_gt hpos)
  rw [Int.toNat_of_nonneg h2, Int.emod_add_emod, add_assoc]

theorem size_add_zero (E : Env) (size : Nat) (h : size < E.SIZE_MOD) :
    size_add E size 0 = size := by
  unfold size_add
  rw [add_zero, Int.emod_eq_of_lt (by omega) (by exact_mod_cast h)]
  simp

theorem template_bounds_valid (E : Env) (table : List Nat) (end_insns insn : Nat)
    (h1 : insn < E.VM_INSTRUCTION_SIZE) (h2 : E.VM_INSTRUCTION_SIZE ≤ table.length) :
    ∃ e, template_bounds E table end_insns insn = some (table.getD insn 0, e) ∧
      (e : Int) - (table.getD insn 0 : Int) = template_length E table end_insns insn := by
  have hlt : insn < table.length := by omega
  unfold template_bounds template_length
  rw [List.getElem?_eq_getElem hlt]
  by_cases hk : insn + 1 < E.VM_INSTRUCTION_SIZE
  · have hlt1 : insn + 1 < table.length := by omega
    rw [List.getElem?_eq_getElem hlt1]
    refine ⟨table[insn + 1], ?_, ?_⟩ <;>
      simp [hk, List.getD_eq_getElem?_getD, List.getElem?_eq_getElem hlt,
        List.getElem?_eq_getElem hlt1]
  · refine ⟨end_insns, ?_, ?_⟩ <;>
      simp [hk, List.getD_eq_getElem?_getD, List.getElem?_eq_getElem hlt]

theorem getElem?_opcode_at (iseq : rb_iseq_t) (i : Nat) (h : i < iseq.iseq.length) :
    iseq.iseq[i]? = some (opcode_at iseq i) := by
  unfold opcode_at
  simp [List.getD_eq_getElem?_getD, List.getElem?_eq_getElem h]

theorem compiled_size_loop_eq (E : Env) (iseq : rb_iseq_t) (table : List Nat)
    (end_insns : Nat) (htab : E.VM_INSTRUCTION_SIZE ≤ table.length) :
    ∀ (n fuel i size : Nat), iseq.iseq_size - i ≤ n → n ≤ fuel → size < E.SIZE_MOD →
      (∀ j ∈ starts_from E iseq n i, valid_start E iseq j) →
      compiled_size_loop E iseq table end_insns fuel i size =
        some (size_add E size
          (sum_template_lengths E iseq table end_insns (starts_from E iseq n i))) := by
  intro n
  induction n with
  | zero =>
    intro fuel i size hrem _ hsize _
    have hi : ¬ i < iseq.iseq_size := by omega
    cases fuel <;>
      simp [compiled_size_loop, hi, starts_from, sum_template_lengths,
        size_add_zero E size hsize]
  | succ n ih =>
    intro fuel i size hrem hfuel hsize hvalid
    obtain ⟨fuel1, rfl⟩ : ∃ f, fuel = f + 1 := ⟨fuel - 1, by omega⟩
    by_cases hi : i < iseq.iseq_size
    · have hv : valid_start E iseq i := hvalid i (by simp [starts_from, hi])
      obtain ⟨hlen, hop, hl⟩ := hv
      obtain ⟨e, hb, hd⟩ :=
        template_bounds_valid E table end_insns (opcode_at iseq i) hop htab
      generalize table.getD (opcode_at iseq i) 0 = beg at hb hd
      have hrest : ∀ j ∈ starts_from E iseq n (i + E.insn_len (opcode_at iseq i)),
          valid_start E iseq j := by
        intro j hj
        apply hvalid j
        simp only [starts_from, hi, if_true, List.mem_cons]
        right
        exact hj
      have hih := ih fuel1 (i + E.insn_len (opcode_at iseq i))
        (size_add E size ((e : Int) - (beg : Int))) (by omega) (by omega)
        (size_add_lt E _ _) hrest
      simp only [compiled_size_loop, hi, if_true, getElem?_opcode_at iseq i hlen, hb]
      rw [hih, size_add_size_add, hd]
      simp [starts_from, hi, sum_template_lengths]
    · simp [compiled_size_loop, hi, starts_from, sum_template_lengths,
        size_add_zero E size hsize]

theorem template_length_take (E : Env) (table : List Nat) (end_insns k : Nat)
    (hk : k < E.VM_INSTRUCTION_SIZE) :
    template_length E (table.take E.VM_INSTRUCTION_SIZE) end_insns k =
      template_length E table end_insns k := by
  unfold template_length
  by_cases h : k + 1 < E.VM_INSTRUCTION_SIZE
  · simp [h, hk, List.getD_eq_getElem?_getD, List.getElem?_take]
  · simp [h, hk, List.getD_eq_getElem?_getD, List.getElem?_take]

theorem sum_template_lengths_take (E : Env) (iseq : rb_iseq_t) (table : List Nat)
    (end_insns : Nat) (starts : List Nat)
    (h : ∀ i ∈ starts, valid_start E iseq i) :
    sum_template_lengths E iseq (table.take E.VM_INSTRUCTION_SIZE) end_insns starts =
      sum_template_lengths E iseq table end_insns starts := by
  unfold sum_template_lengths
  congr 1
  apply List.map_congr_left
  intro i hi
  exact template_length_take E table end_insns _ (h i hi).2.1

theorem copy_loop_eq (E : Env) (iseq : rb_iseq_t) (table : List Nat)
    (end_insns : Nat) (htab : E.VM_INSTRUCTION_SIZE ≤ table.length) :
    ∀ (n fuel i code : Nat) (M : Machine), iseq.iseq_size - i ≤ n → n ≤ fuel →
      (∀ j ∈ starts_from E iseq n i, valid_start E iseq j ∧
        0 ≤ template_length E table end_insns (opcode_at iseq j)) →
      copy_loop E iseq table end_insns fuel i code M =
        some (code + copied_bytes E iseq table end_insns (starts_from E iseq n i),
          { M with
            mem := run_copies M.mem
              (copies_from E iseq table end_insns code (starts_from E iseq n i))
            trace := M.trace ++
              copies_from E iseq table end_insns code (starts_from E iseq n i) }) := by
  intro n
  induction n with
  | zero =>
    intro fuel i code M hrem _ _
    have hi : ¬ i < iseq.iseq_size := by omega
    cases fuel <;>
      simp [copy_loop, hi, starts_from, copied_bytes, copies_from, run_copies]
  | succ n ih =>
    intro fuel i code M hrem hfuel hvalid
    obtain ⟨fuel1, rfl⟩ : ∃ f, fuel = f + 1 := ⟨fuel - 1, by omega⟩
    by_cases hi : i < iseq.iseq_size
    · obtain ⟨⟨hlen, hop, hl⟩, hnn⟩ := hvalid i (by simp [starts_from, hi])
      obtain ⟨e, hb, hd⟩ :=
        template_bounds_valid E table end_insns (opcode_at iseq i) hop htab
      have hrest : ∀ j ∈ starts_from E iseq n (i + E.insn_len (opcode_at iseq i)),
          valid_start E iseq j ∧
            0 ≤ template_length E table end_insns (opcode_at iseq j) := by
        intro j hj
        apply hvalid j
        simp only [starts_from, hi, if_true, List.mem_cons]
        right
        exact hj
      have hsz : e - table.getD (opcode_at iseq i) 0 =
          template_size E table end_insns (opcode_at iseq i) := by
        unfold template_size
        omega
      have hnlt : ¬ e < table.getD (opcode_at iseq i) 0 := by omega
      simp only [copy_loop, hi, if_true, getElem?_opcode_at iseq i hlen, hb, hnlt, if_false]
      rw [ih fuel1 _ _ _ (by omega) (by omega) hrest, hsz]
      have hst : starts_from E iseq (n + 1) i =
          i :: starts_from E iseq n (i + E.insn_len (opcode_at iseq i)) := by
        simp [starts_from, hi]
      rw [hst]
      simp [copied_bytes, copies_from, run_copies, add_assoc]
    · simp [copy_loop, hi, starts_from, copied_bytes, copies_from, run_copies]

theorem copied_bytes_cast (E : Env) (iseq : rb_iseq_t) (table : List Nat)
    (end_insns : Nat) (starts : List Nat)
    (h : ∀ j ∈ starts, 0 ≤ template_length E table end_insns (opcode_at iseq j)) :
    (copied_bytes E iseq table end_insns starts : Int) =
      sum_template_lengths E iseq table end_insns starts := by
  induction starts with
  | nil => simp [copied_bytes, sum_template_lengths]
  | cons i rest ih =>
    have h1 := h i (by simp)
    have h2 := ih (fun j hj => h j (by simp [hj]))
    simp only [copied_bytes, sum_template_lengths, List.map_cons, List.sum_cons,
      template_size] at h2 ⊢
    rw [Nat.cast_add, h2, Int.toNat_of_nonneg h1]

theorem copies_from_bounds (E : Env) (iseq : rb_iseq_t) (table : List Nat)
    (end_insns : Nat) (starts : List Nat) :
    ∀ (code dst src n : Nat),
      Event.memcpy dst src n ∈ copies_from E iseq table end_insns code starts →
      code ≤ dst ∧ dst + n ≤ code + copied_bytes E iseq table end_insns starts := by
  induction starts with
  | nil => intro code dst src n h; simp [copies_from] at h
  | cons i rest ih =>
    intro code dst src n h
    simp only [copies_from, List.mem_cons, Event.memcpy.injEq] at h
    simp only [copied_bytes, List.map_cons, List.sum_cons]
    rcases h with ⟨h1, _, h3⟩ | h
    · subst h1 h3
      omega
    · have := ih _ dst src n h
      simp only [copied_bytes] at this
      omega

theorem compiled_size_value (E : Env) (iseq : rb_iseq_t) (table : List Nat)
    (end_insns fuel : Nat) (htab : E.VM_INSTRUCTION_SIZE ≤ table.length)
    (hvalid : ∀ i ∈ instruction_starts E iseq, valid_start E iseq i)
    (hfuel : iseq.iseq_size ≤ fuel) :
    rb_iseq_jit_compiled_size E fuel iseq table end_insns =
      some ((sum_template_lengths E iseq table end_insns (instruction_starts E iseq)
        % (E.SIZE_MOD : Int)).toNat) := by
  have h := compiled_size_loop_eq E iseq table end_insns htab iseq.iseq_size fuel 0 0
    (by omega) hfuel (SIZE_MOD_pos E) hvalid
  unfold rb_iseq_jit_compiled_size
  rw [h]
  simp [size_add, instruction_starts]

theorem template_bounds_some (E : Env) (table : List Nat) (end_insns insn beg e : Nat)
    (h : template_bounds E table end_insns insn = some (beg, e)) :
    beg = table.getD insn 0 ∧
      (e : Int) - (beg : Int) = template_length E table end_insns insn := by
  unfold template_bounds at h
  unfold template_length
  cases h1 : table[insn]? with
  | none => simp [h1] at h
  | some b =>
    simp only [h1] at h
    by_cases hk : insn + 1 < E.VM_INSTRUCTION_SIZE
    · cases h2 : table[insn + 1]? with
      | none => simp [hk, h2] at h
      | some e1 =>
        simp only [hk, h2, if_true, Option.some.injEq, Prod.mk.injEq] at h
        simp [hk, List.getD_eq_getElem?_getD, h1, h2, h.1, h.2]
    · simp only [hk, if_false, Option.some.injEq, Prod.mk.injEq] at h
      simp [hk, List.getD_eq_getElem?_getD, h1, h.1, h.2]

theorem copy_loop_stuck (E : Env) (iseq : rb_iseq_t) (table : List Nat) (end_insns : Nat)
    (i insn : Nat) (hi : i < iseq.iseq_size) (hop : iseq.iseq[i]? = some insn)
    (hlen : E.insn_len insn = 0) :
    ∀ (fuel code : Nat) (M : Machine),
      copy_loop E iseq table end_insns fuel i code M = none := by
  intro fuel
  induction fuel with
  | zero => intro code M; simp [copy_loop, hi]
  | succ f ih =>
    intro code M
    simp only [copy_loop, hi, if_true, hop]
    cases template_bounds E table end_insns insn with
    | none => rfl
    | some v =>
      obtain ⟨beg, e⟩ := v
      by_cases h : e < beg
      · simp [h]
      · simp only [h, if_false, hlen, add_zero]
        exact ih _ _

theorem starts_from_stable (E : Env) (iseq : rb_iseq_t) :
    ∀ (n m i : Nat), iseq.iseq_size - i ≤ n → n ≤ m →
      (∀ j ∈ starts_from E iseq n i, 1 ≤ E.insn_len (opcode_at iseq j)) →
      starts_from E iseq m i = starts_from E iseq n i := by
  intro n
  induction n with
  | zero =>
    intro m i h _ _
    have hi : ¬ i < iseq.iseq_size := by omega
    cases m <;> simp [starts_from, hi]
  | succ n ih =>
    intro m i h hm hl
    obtain ⟨m1, rfl⟩ : ∃ f, m = f + 1 := ⟨m - 1, by omega⟩
    by_cases hi : i < iseq.iseq_size
    · have h1 : 1 ≤ E.insn_len (opcode_at iseq i) := hl i (by simp [starts_from, hi])
      have h2 := ih m1 (i + E.insn_len (opcode_at iseq i)) (by omega) (by omega)
        (fun j hj => hl j (by
          simp only [starts_from, hi, if_true, List.mem_cons]
          right; exact hj))
      simp [starts_from, hi, h2]
    · simp [starts_from, hi]

theorem copy_loop_some (E : Env) (iseq : rb_iseq_t) (table : List Nat) (end_insns : Nat) :
    ∀ (fuel i code : Nat) (M : Machine) (c : Nat) (M3 : Machine),
      copy_loop E iseq table end_insns fuel i code M = some (c, M3) →
      starts_from E iseq fuel i = starts_from E iseq (iseq.iseq_size - i) i ∧
      (∀ j ∈ starts_from E iseq fuel i, 1 ≤ E.insn_len (opcode_at iseq j) ∧
        0 ≤ template_length E table end_insns (opcode_at iseq j)) ∧
      c = code + copied_bytes E iseq table end_insns (starts_from E iseq fuel i) ∧
      M3 = { M with
        mem := run_copies M.mem
          (copies_from E iseq table end_insns code (starts_from E iseq fuel i))
        trace := M.trace ++
          copies_from E iseq table end_insns code (starts_from E iseq fuel i) } := by
  intro fuel
  induction fuel with
  | zero =>
    intro i code M c M3 h
    by_cases hi : i < iseq.iseq_size
    · simp [copy_loop, hi] at h
    · simp only [copy_loop, hi, if_false, Option.some.injEq, Prod.mk.injEq] at h
      have h0 : iseq.iseq_size - i = 0 := by omega
      simp [starts_from, h0, copied_bytes, copies_from, run_copies, ← h.1, ← h.2]
  | succ f ih =>
    intro i code M c M3 h
    by_cases hi : i < iseq.iseq_size
    · simp only [copy_loop, hi, if_true] at h
      cases hop : iseq.iseq[i]? with
      | none => simp [hop] at h
      | some insn =>
        have hopc : opcode_at iseq i = insn := by
          simp [opcode_at, List.getD_eq_getElem?_getD, hop]
        simp only [hop] at h
        cases htb : template_bounds E table end_insns insn with
        | none => simp [htb] at h
        | some v =>
          obtain ⟨beg, e⟩ := v
          simp only [htb] at h
          by_cases hlt : e < beg
          · simp [hlt] at h
          · simp only [hlt, if_false] at h
            obtain ⟨hb, hd⟩ := template_bounds_some E table end_insns insn beg e htb
            have hl1 : 1 ≤ E.insn_len insn := by
              by_contra hcon
              have h0 : E.insn_len insn = 0 := by omega
              rw [h0, add_zero,
                copy_loop_stuck E iseq table end_insns i insn hi hop h0] at h
              cases h
            obtain ⟨g1, g2, g3, g4⟩ := ih _ _ _ c M3 h
            have hst : starts_from E iseq (f + 1) i =
                i :: starts_from E iseq f (i + E.insn_len insn) := by
              simp [starts_from, hi, ← hopc]
            have hsz : e - beg = template_size E table end_insns insn := by
              unfold template_size; omega
            have hnn : 0 ≤ template_length E table end_insns insn := by omega
            have hst2 : starts_from E iseq (iseq.iseq_size - i) i =
                i :: starts_from E iseq f (i + E.insn_len insn) := by
              obtain ⟨r, hr⟩ : ∃ r, iseq.iseq_size - i = r + 1 :=
                ⟨iseq.iseq_size - i - 1, by omega⟩
              rw [hr]
              have hs1 : starts_from E iseq (r + 1) i =
                  i :: starts_from E iseq r (i + E.insn_len insn) := by
                simp [starts_from, hi, ← hopc]
              rw [hs1, g1]
              congr 1
              have hge : iseq.iseq_size - (i + E.insn_len insn) ≤ r := by omega
              have := starts_from_stable E iseq
                (iseq.iseq_size - (i + E.insn_len insn)) r (i + E.insn_len insn)
                (le_refl _) hge (fun j hj => (g2 j (by rw [g1]; exact hj)).1)
              exact this
            refine ⟨by rw [hst, hst2], ?_, ?_, ?_⟩
            · intro j hj
              rw [hst] at hj
              rcases List.mem_cons.mp hj with rfl | hj
              · rw [hopc]; exact ⟨hl1, hnn⟩
              · exact g2 j hj
            · rw [g3, hst, hsz]
              simp [copied_bytes, hopc, add_assoc]
            · rw [g4, hst, hsz, hb]
              simp [copies_from, run_copies, hopc]
    · simp only [copy_loop, hi, if_false, Option.some.injEq, Prod.mk.injEq] at h
      have h0 : iseq.iseq_size - i = 0 := by omega
      simp [starts_from, hi, h0, copied_bytes, copies_from, run_copies, ← h.1, ← h.2]

theorem copy_loop_congr (E : Env) (iseq iseq2 : rb_iseq_t) (table : List Nat)
    (end_insns : Nat) (h1 : iseq2.iseq = iseq.iseq) (h2 : iseq2.iseq_size = iseq.iseq_size) :
    ∀ (fuel i code : Nat) (M : Machine),
      copy_loop E iseq2 table end_insns fuel i code M =
        copy_loop E iseq table end_insns fuel i code M := by
  intro fuel
  induction fuel with
  | zero => intro i code M; simp [copy_loop, h2]
  | succ f ih =>
    intro i code M
    simp only [copy_loop, h1, h2, ih]

theorem starts_from_length (E : Env) (iseq : rb_iseq_t) :
    ∀ (n i : Nat), (starts_from E iseq n i).length ≤ n := by
  intro n
  induction n with
  | zero => intro i; simp [starts_from]
  | succ n ih =>
    intro i
    by_cases hi : i < iseq.iseq_size
    · have := ih (i + E.insn_len (opcode_at iseq i))
      simp only [starts_from, hi, if_true, List.length_cons]
      omega
    · simp [starts_from, hi]

theorem opcode_at_of_getElem? (iseq : rb_iseq_t) (i insn : Nat)
    (h : iseq.iseq[i]? = some insn) : opcode_at iseq i = insn := by
  simp [opcode_at, List.getD_eq_getElem?_getD, h]

theorem compiled_size_loop_stable (E : Env) (iseq : rb_iseq_t) (table : List Nat)
    (end_insns : Nat) :
    ∀ (n fuel i size : Nat), iseq.iseq_size - i ≤ n → n ≤ fuel →
      (∀ j ∈ starts_from E iseq n i, 1 ≤ E.insn_len (opcode_at iseq j)) →
      compiled_size_loop E iseq table end_insns fuel i size =
        compiled_size_loop E iseq table end_insns n i size := by
  intro n
  induction n with
  | zero =>
    intro fuel i size hrem _ _
    have hi : ¬ i < iseq.iseq_size := by omega
    cases fuel <;> simp [compiled_size_loop, hi]
  | succ n ih =>
    intro fuel i size hrem hfuel hl
    obtain ⟨fuel1, rfl⟩ : ∃ f, fuel = f + 1 := ⟨fuel - 1, by omega⟩
    by_cases hi : i < iseq.iseq_size
    · simp only [compiled_size_loop, hi, if_true]
      cases hop : iseq.iseq[i]? with
      | none => rfl
      | some insn =>
        have hopc := opcode_at_of_getElem? iseq i insn hop
        dsimp only
        cases htb : template_bounds E table end_insns insn with
        | none => rfl
        | some v =>
          obtain ⟨beg, e⟩ := v
          have h1 : 1 ≤ E.insn_len insn := by
            rw [← hopc]; exact hl i (by simp [starts_from, hi])
          dsimp only
          exact ih fuel1 (i + E.insn_len insn) _ (by omega) (by omega)
            (fun j hj => hl j (by
              simp only [starts_from, hi, if_true, List.mem_cons, hopc]
              right; exact hj))
    · simp [compiled_size_loop, hi]

theorem copy_loop_stable (E : Env) (iseq : rb_iseq_t) (table : List Nat)
    (end_insns : Nat) :
    ∀ (n fuel i code : Nat) (M : Machine), iseq.iseq_size - i ≤ n → n ≤ fuel →
      (∀ j ∈ starts_from E iseq n i, 1 ≤ E.insn_len (opcode_at iseq j)) →
      copy_loop E iseq table end_insns fuel i code M =
        copy_loop E iseq table end_insns n i code M := by
  intro n
  induction n with
  | zero =>
    intro fuel i code M hrem _ _
    have hi : ¬ i < iseq.iseq_size := by omega
    cases fuel <;> simp [copy_loop, hi]
  | succ n ih =>
    intro fuel i code M hrem hfuel hl
    obtain ⟨fuel1, rfl⟩ : ∃ f, fuel = f + 1 := ⟨fuel - 1, by omega⟩
    by_cases hi : i < iseq.iseq_size
    · simp only [copy_loop, hi, if_true]
      cases hop : iseq.iseq[i]? with
      | none => rfl
      | some insn =>
        have hopc := opcode_at_of_getElem? iseq i insn hop
        dsimp only
        cases htb : template_bounds E table end_insns insn with
        | none => rfl
        | some v =>
          obtain ⟨beg, e⟩ := v
          have h1 : 1 ≤ E.insn_len insn := by
            rw [← hopc]; exact hl i (by simp [starts_from, hi])
          dsimp only
          by_cases hlt : e < beg
          · simp [hlt]
          · simp only [hlt, if_false]
            exact ih fuel1 (i + E.insn_len insn) _ _ (by omega) (by omega)
              (fun j hj => hl j (by
                simp only [starts_from, hi, if_true, List.mem_cons, hopc]
                right; exact hj))
    · simp [copy_loop, hi]

theorem bytes_written_copies_from (E : Env) (iseq : rb_iseq_t) (table : List Nat)
    (end_insns : Nat) (starts : List Nat) :
    ∀ code : Nat, bytes_written (copies_from E iseq table end_insns code starts) =
      copied_bytes E iseq table end_insns starts := by
  induction starts with
  | nil => intro code; simp [copies_from, bytes_written, copied_bytes]
  | cons i rest ih =>
    intro code
    have := ih (code + template_size E table end_insns (opcode_at iseq i))
    simp only [copied_bytes] at this
    simp [copies_from, bytes_written, copied_bytes, this]

theorem consecutive_copies_copies_from (E : Env) (iseq : rb_iseq_t) (table : List Nat)
    (end_insns : Nat) (starts : List Nat) :
    ∀ code : Nat, consecutive_copies code (copies_from E iseq table end_insns code starts)
      (code + copied_bytes E iseq table end_insns starts) := by
  induction starts with
  | nil => intro code; simp [copies_from, consecutive_copies, copied_bytes]
  | cons i rest ih =>
    intro code
    have := ih (code + template_size E table end_insns (opcode_at iseq i))
    simp only [copied_bytes] at this
    simp only [copies_from, consecutive_copies, copied_bytes, List.map_cons, List.sum_cons,
      true_and]
    rw [← add_assoc]
    exact this

theorem length_copies_from (E : Env) (iseq : rb_iseq_t) (table : List Nat)
    (end_insns : Nat) (starts : List Nat) :
    ∀ code : Nat, (copies_from E iseq table end_insns code starts).length = starts.length := by
  induction starts with
  | nil => intro code; rfl
  | cons i rest ih => intro code; simp [copies_from, ih]

/-! ## Lemmas on the togglers -/

theorem enable_write_ok (E : Env) (M : Machine) (cache : rb_jit_code_cache)
    (h : E.mprotect cache.start cache.size (PROT_READ ||| PROT_WRITE) = 0) :
    enable_write_in_jit_code_cache E M cache = Except.ok
      { M with
        prot := set_prot M.prot cache.start cache.size (PROT_READ ||| PROT_WRITE)
        trace := M.trace ++
          [Event.mprotect cache.start cache.size (PROT_READ ||| PROT_WRITE) 0] } := by
  simp [enable_write_in_jit_code_cache, sys_mprotect, h]

theorem enable_write_fail (E : Env) (M : Machine) (cache : rb_jit_code_cache)
    (h : E.mprotect cache.start cache.size (PROT_READ ||| PROT_WRITE) ≠ 0) :
    enable_write_in_jit_code_cache E M cache = Except.error
      { M with
        trace := M.trace ++
          [Event.mprotect cache.start cache.size (PROT_READ ||| PROT_WRITE)
            (E.mprotect cache.start cache.size (PROT_READ ||| PROT_WRITE))] } := by
  simp [enable_write_in_jit_code_cache, sys_mprotect, h, rb_sys_fail]

theorem enable_execution_ok (E : Env) (M : Machine) (cache : rb_jit_code_cache)
    (h : E.mprotect cache.start cache.size (PROT_READ ||| PROT_EXEC) = 0) :
    enable_execution_in_jit_code_cache E M cache = Except.ok
      { M with
        prot := set_prot M.prot cache.start cache.size (PROT_READ ||| PROT_EXEC)
        trace := M.trace ++
          [Event.mprotect cache.start cache.size (PROT_READ ||| PROT_EXEC) 0] } := by
  simp [enable_execution_in_jit_code_cache, sys_mprotect, h]

theorem enable_execution_fail (E : Env) (M : Machine) (cache : rb_jit_code_cache)
    (h : E.mprotect cache.start cache.size (PROT_READ ||| PROT_EXEC) ≠ 0) :
    enable_execution_in_jit_code_cache E M cache = Except.error
      { M with
        trace := M.trace ++
          [Event.mprotect cache.start cache.size (PROT_READ ||| PROT_EXEC)
            (E.mprotect cache.start cache.size (PROT_READ ||| PROT_EXEC))] } := by
  simp [enable_execution_in_jit_code_cache, sys_mprotect, h, rb_sys_fail]

theorem run_copies_outside (E : Env) (iseq : rb_iseq_t) (table : List Nat)
    (end_insns : Nat) (starts : List Nat) :
    ∀ (code : Nat) (mem : Nat → Nat) (a : Nat),
      a < code ∨ code + copied_bytes E iseq table end_insns starts ≤ a →
      run_copies mem (copies_from E iseq table end_insns code starts) a = mem a := by
  induction starts with
  | nil => intro code mem a _; simp [copies_from, run_copies]
  | cons i rest ih =>
    intro code mem a ha
    simp only [copied_bytes, List.map_cons, List.sum_cons] at ha
    simp only [copies_from, run_copies]
    rw [ih _ _ a (by simp only [copied_bytes]; omega)]
    unfold memcpy
    have : ¬ (code ≤ a ∧ a < code + template_size E table end_insns (opcode_at iseq i)) := by
      omega
    simp [this]

theorem read_bytes_congr (mem1 mem2 : Nat → Nat) (a b n : Nat)
    (h : ∀ k, k < n → mem1 (a + k) = mem2 (b + k)) :
    read_bytes mem1 a n = read_bytes mem2 b n := by
  unfold read_bytes
  apply List.map_congr_left
  intro k hk
  exact h k (List.mem_range.mp hk)

theorem read_bytes_add (mem : Nat → Nat) (a n m : Nat) :
    read_bytes mem a (n + m) = read_bytes mem a n ++ read_bytes mem (a + n) m := by
  unfold read_bytes
  rw [List.range_add, List.map_append, List.map_map]
  congr 1
  apply List.map_congr_left
  intro k _
  simp [add_assoc]

theorem expected_payload_congr (E : Env) (iseq : rb_iseq_t) (table : List Nat)
    (end_insns : Nat) (mem1 mem2 : Nat → Nat) (starts : List Nat)
    (h : ∀ i ∈ starts, ∀ k, k < template_size E table end_insns (opcode_at iseq i) →
      mem1 (table.getD (opcode_at iseq i) 0 + k) = mem2 (table.getD (opcode_at iseq i) 0 + k)) :
    expected_payload E iseq table end_insns mem1 starts =
      expected_payload E iseq table end_insns mem2 starts := by
  induction starts with
  | nil => rfl
  | cons i rest ih =>
    simp only [expected_payload]
    rw [ih (fun j hj => h j (by simp [hj])),
      read_bytes_congr mem1 mem2 _ _ _ (h i (by simp))]

theorem run_copies_payload (E : Env) (iseq : rb_iseq_t) (table : List Nat)
    (end_insns : Nat) (starts : List Nat) :
    ∀ (code : Nat) (mem : Nat → Nat),
      (∀ i ∈ starts,
        table.getD (opcode_at iseq i) 0 + template_size E table end_insns (opcode_at iseq i)
            ≤ code ∨
          code + copied_bytes E iseq table end_insns starts
            ≤ table.getD (opcode_at iseq i) 0) →
      read_bytes (run_copies mem (copies_from E iseq table end_insns code starts)) code
          (copied_bytes E iseq table end_insns starts) =
        expected_payload E iseq table end_insns mem starts := by
  induction starts with
  | nil => intro code mem _; simp [copied_bytes, read_bytes, expected_payload]
  | cons i rest ih =>
    intro code mem hsep
    have hcb : copied_bytes E iseq table end_insns (i :: rest) =
        template_size E table end_insns (opcode_at iseq i) +
          copied_bytes E iseq table end_insns rest := by
      simp [copied_bytes]
    rw [hcb] at hsep ⊢
    rw [read_bytes_add]
    simp only [copies_from, run_copies, expected_payload]
    congr 1
    · apply read_bytes_congr
      intro k hk
      rw [run_copies_outside E iseq table end_insns rest _ _ _ (Or.inl (by omega))]
      unfold memcpy
      have : code ≤ code + k ∧
          code + k < code + template_size E table end_insns (opcode_at iseq i) := by omega
      simp [this]
    · rw [ih _ _ (fun j hj => by
        rcases hsep j (by simp [hj]) with h1 | h1
        · left; omega
        · right; omega)]
      apply expected_payload_congr
      intro j hj k hk
      have : ¬ (code ≤ table.getD (opcode_at iseq j) 0 + k ∧
          table.getD (opcode_at iseq j) 0 + k <
            code + template_size E table end_insns (opcode_at iseq i)) := by
        rcases hsep j (by simp [hj]) with h1 | h1 <;> omega
      simp only [memcpy]
      rw [if_neg this]

theorem filter_is_memcpy_copies_from (E : Env) (iseq : rb_iseq_t) (table : List Nat)
    (end_insns : Nat) (starts : List Nat) :
    ∀ code : Nat, (copies_from E iseq table end_insns code starts).filter is_memcpy =
      copies_from E iseq table end_insns code starts := by
  induction starts with
  | nil => intro code; rfl
  | cons i rest ih => intro code; simp [copies_from, is_memcpy, ih]

/-! ## Lemmas on the allocator -/

theorem scan_free_list_none (E : Env) (size : Nat) (fl : List rb_jit_free_list) :
    scan_free_list E size fl = none ↔ ∀ m ∈ fl, m.size < size := by
  induction fl with
  | nil => simp [scan_free_list]
  | cons n rest ih =>
    by_cases h : n.size ≥ size
    · have h1 : ¬ n.size < size := by omega
      by_cases h2 : n.size > (size + E.sizeof_chunk) % E.SIZE_MOD <;>
        simp [scan_free_list, h, h1, h2]
    · have h1 : n.size < size := by omega
      cases hs : scan_free_list E size rest with
      | none => simpa [scan_free_list, h, hs, h1] using ih.mp hs
      | some v =>
        have : ¬ ∀ m ∈ rest, m.size < size := fun hall => by
          rw [ih.mpr hall] at hs; cases hs
        simpa [scan_free_list, h, hs, h1] using this

theorem scan_free_list_some (E : Env) (size : Nat) :
    ∀ (fl : List rb_jit_free_list) (chunk : rb_jit_code_chunk)
      (fl1 : List rb_jit_free_list), scan_free_list E size fl = some (chunk, fl1) →
      ∃ p node q, fl = p ++ node :: q ∧ (∀ m ∈ p, m.size < size) ∧ size ≤ node.size ∧
        chunk = ⟨node.addr, (size + E.sizeof_ptr) % E.SIZE_MOD⟩ ∧
        fl1 = p ++ (if node.size > (size + E.sizeof_chunk) % E.SIZE_MOD
          then [{ node with size := (size + E.sizeof_ptr) % E.SIZE_MOD }] else []) ++ q := by
  intro fl
  induction fl with
  | nil => intro chunk fl1 h; simp [scan_free_list] at h
  | cons n rest ih =>
    intro chunk fl1 h
    by_cases hn : n.size ≥ size
    · refine ⟨[], n, rest, rfl, by simp, hn, ?_⟩
      by_cases h2 : n.size > (size + E.sizeof_chunk) % E.SIZE_MOD
      · simp only [scan_free_list, hn, h2, if_true, Option.some.injEq, Prod.mk.injEq] at h
        simp [h2, ← h.1, ← h.2]
      · simp only [scan_free_list, hn, h2, if_true, if_false, Option.some.injEq,
          Prod.mk.injEq] at h
        simp [h2, ← h.1, ← h.2]
    · cases hs : scan_free_list E size rest with
      | none => simp [scan_free_list, hn, hs] at h
      | some v =>
        obtain ⟨c, r1⟩ := v
        simp only [scan_free_list, hn, hs, if_false, Option.some.injEq, Prod.mk.injEq] at h
        obtain ⟨p, node, q, h1, h2, h3, h4, h5⟩ := ih c r1 hs
        refine ⟨n :: p, node, q, by simp [h1], ?_, h3, by rw [← h.1, h4], ?_⟩
        · intro m hm
          rcases List.mem_cons.mp hm with rfl | hm
          · omega
          · exact h2 m hm
        · rw [← h.2, h5]; simp

theorem scan_free_list_split (E : Env) (size : Nat) (p q : List rb_jit_free_list)
    (node : rb_jit_free_list) (hp : ∀ m ∈ p, m.size < size) (hnode : size ≤ node.size) :
    scan_free_list E size (p ++ node :: q) =
      some (⟨node.addr, (size + E.sizeof_ptr) % E.SIZE_MOD⟩,
        p ++ (if node.size > (size + E.sizeof_chunk) % E.SIZE_MOD
          then [{ node with size := (size + E.sizeof_ptr) % E.SIZE_MOD }] else []) ++ q) := by
  induction p with
  | nil =>
    by_cases h2 : node.size > (size + E.sizeof_chunk) % E.SIZE_MOD <;>
      simp [scan_free_list, hnode, h2]
  | cons n rest ih =>
    have h1 : ¬ n.size ≥ size := by have := hp n (by simp); omega
    have := ih (fun m hm => hp m (by simp [hm]))
    simp [scan_free_list, h1, this]

theorem scan_caches_none (E : Env) (size : Nat) (pool : List rb_jit_code_cache) :
    scan_caches E size pool = none ↔ no_fit size pool := by
  unfold no_fit
  induction pool with
  | nil => simp [scan_caches]
  | cons c rest ih =>
    cases hs : scan_free_list E size c.free_list with
    | some v =>
      have : ¬ ∀ m ∈ c.free_list, m.size < size := fun hall => by
        rw [(scan_free_list_none E size _).mpr hall] at hs; cases hs
      simp [scan_caches, hs, this]
    | none =>
      have h0 := (scan_free_list_none E size _).mp hs
      cases hr : scan_caches E size rest with
      | none =>
        have h1 := ih.mp hr
        simp only [scan_caches, hs, hr, List.mem_cons, forall_eq_or_imp, true_iff]
        exact ⟨h0, h1⟩
      | some w =>
        have : ¬ ∀ c ∈ rest, ∀ m ∈ c.free_list, m.size < size := fun hall => by
          rw [ih.mpr hall] at hr; cases hr
        simp only [scan_caches, hs, hr, List.mem_cons, forall_eq_or_imp, false_iff,
          reduceCtorEq]
        exact fun h => this h.2

theorem scan_caches_some (E : Env) (size : Nat) :
    ∀ (pool : List rb_jit_code_cache) (k : Nat) (chunk : rb_jit_code_chunk)
      (pool1 : List rb_jit_code_cache), scan_caches E size pool = some (k, chunk, pool1) →
      ∃ before cache after fl1, pool = before ++ cache :: after ∧ before.length = k ∧
        no_fit size before ∧
        scan_free_list E size cache.free_list = some (chunk, fl1) ∧
        pool1 = before ++ { cache with free_list := fl1 } :: after := by
  intro pool
  induction pool with
  | nil => intro k chunk pool1 h; simp [scan_caches] at h
  | cons c rest ih =>
    intro k chunk pool1 h
    cases hs : scan_free_list E size c.free_list with
    | some v =>
      obtain ⟨ch, fl⟩ := v
      simp only [scan_caches, hs, Option.some.injEq, Prod.mk.injEq] at h
      obtain ⟨rfl, rfl, rfl⟩ := h
      exact ⟨[], c, rest, fl, rfl, rfl, by simp [no_fit], hs, rfl⟩
    | none =>
      cases hr : scan_caches E size rest with
      | none => simp [scan_caches, hs, hr] at h
      | some w =>
        obtain ⟨k1, ch, p1⟩ := w
        simp only [scan_caches, hs, hr, Option.some.injEq, Prod.mk.injEq] at h
        obtain ⟨rfl, rfl, rfl⟩ := h
        obtain ⟨before, cache, after, fl1, h1, h2, h3, h4, h5⟩ := ih k1 ch p1 hr
        refine ⟨c :: before, cache, after, fl1, by simp [h1], by simp [h2], ?_, h4,
          by simp [h5]⟩
        intro c1 hc1
        rcases List.mem_cons.mp hc1 with rfl | hc1
        · exact (scan_free_list_none E size _).mp hs
        · exact h3 c1 hc1

theorem scan_caches_split (E : Env) (size : Nat) (before after : List rb_jit_code_cache)
    (cache : rb_jit_code_cache) (chunk : rb_jit_code_chunk) (fl1 : List rb_jit_free_list)
    (hb : no_fit size before)
    (hc : scan_free_list E size cache.free_list = some (chunk, fl1)) :
    scan_caches E size (before ++ cache :: after) =
      some (before.length, chunk, before ++ { cache with free_list := fl1 } :: after) := by
  induction before with
  | nil => simp [scan_caches, hc]
  | cons c rest ih =>
    have h0 : scan_free_list E size c.free_list = none :=
      (scan_free_list_none E size _).mpr (hb c (by simp))
    have := ih (fun c1 hc1 => hb c1 (by simp [hc1]))
    simp [scan_caches, h0, this]

theorem all_nodes_append (a b : List rb_jit_code_cache) :
    all_nodes (a ++ b) = all_nodes a ++ all_nodes b := by
  induction a with
  | nil => simp [all_nodes]
  | cons c rest ih => simp [all_nodes, ih]

theorem no_fit_all_nodes (size : Nat) (pool : List rb_jit_code_cache) :
    no_fit size pool ↔ ∀ m ∈ all_nodes pool, m.size < size := by
  unfold no_fit
  induction pool with
  | nil => simp [all_nodes]
  | cons c rest ih =>
    simp only [List.mem_cons, forall_eq_or_imp, all_nodes, List.mem_append]
    rw [ih]
    constructor
    · rintro ⟨h1, h2⟩ m (hm | hm)
      · exact h1 m hm
      · exact h2 m hm
    · intro h
      exact ⟨fun m hm => h m (Or.inl hm), fun m hm => h m (Or.inr hm)⟩

theorem allocate_some (E : Env) (pool : List rb_jit_code_cache) (iseq : rb_iseq_t)
    (size k : Nat)
    (hret : (rb_iseq_allocate_jit_compiled_iseq E pool iseq size).ret = some k) :
    0 < size ∧ ∃ before cache after p node q,
      pool = before ++ cache :: after ∧ before.length = k ∧
      cache.free_list = p ++ node :: q ∧ no_fit size before ∧
      (∀ m ∈ p, m.size < size) ∧ size ≤ node.size ∧
      rb_iseq_allocate_jit_compiled_iseq E pool iseq size =
        { ret := some k,
          pool := before ++ { cache with free_list :=
            p ++ (if node.size > (size + E.sizeof_chunk) % E.SIZE_MOD
              then [{ node with size := (size + E.sizeof_ptr) % E.SIZE_MOD }] else []) ++ q }
            :: after,
          iseq := { iseq with jit_compiled_iseq := node.addr + E.sizeof_chunk },
          chunk := some ⟨node.addr, (size + E.sizeof_ptr) % E.SIZE_MOD⟩ } := by
  unfold rb_iseq_allocate_jit_compiled_iseq at hret ⊢
  by_cases h0 : size = 0
  · simp [h0] at hret
  · refine ⟨by omega, ?_⟩
    cases hs : scan_caches E size pool with
    | none => simp [h0, hs] at hret
    | some v =>
      obtain ⟨k1, chunk, pool1⟩ := v
      simp only [h0, hs, if_false, Option.some.injEq] at hret
      subst hret
      obtain ⟨before, cache, after, fl1, h1, h2, h3, h4, h5⟩ :=
        scan_caches_some E size pool k1 chunk pool1 hs
      obtain ⟨p, node, q, g1, g2, g3, g4, g5⟩ :=
        scan_free_list_some E size cache.free_list chunk fl1 h4
      refine ⟨before, cache, after, p, node, q, h1, h2, g1, h3, g2, g3, ?_⟩
      simp [h0, h5, g4, g5]

theorem allocate_none (E : Env) (pool : List rb_jit_code_cache) (iseq : rb_iseq_t)
    (size : Nat) (h : size = 0 ∨ no_fit size pool) :
    rb_iseq_allocate_jit_compiled_iseq E pool iseq size =
      { ret := none, pool := pool, iseq := iseq, chunk := none } := by
  unfold rb_iseq_allocate_jit_compiled_iseq
  by_cases h0 : size = 0
  · simp [h0]
  · rcases h with h | h
    · exact absurd h h0
    · simp [h0, (scan_caches_none E size pool).mpr h]

theorem allocate_split (E : Env) (before after : List rb_jit_code_cache)
    (cache : rb_jit_code_cache) (p q : List rb_jit_free_list) (node : rb_jit_free_list)
    (iseq : rb_iseq_t) (size : Nat) (hsize : 0 < size) (hbefore : no_fit size before)
    (hfl : cache.free_list = p ++ node :: q) (hp : ∀ m ∈ p, m.size < size)
    (hnode : size ≤ node.size) :
    rb_iseq_allocate_jit_compiled_iseq E (before ++ cache :: after) iseq size =
      { ret := some before.length,
        pool := before ++ { cache with free_list :=
          p ++ (if node.size > (size + E.sizeof_chunk) % E.SIZE_MOD
            then [{ node with size := (size + E.sizeof_ptr) % E.SIZE_MOD }] else []) ++ q }
          :: after,
        iseq := { iseq with jit_compiled_iseq := node.addr + E.sizeof_chunk },
        chunk := some ⟨node.addr, (size + E.sizeof_ptr) % E.SIZE_MOD⟩ } := by
  have h1 := scan_free_list_split E size p q node hp hnode
  rw [← hfl] at h1
  have h2 := scan_caches_split E size before after cache _ _ hbefore h1
  unfold rb_iseq_allocate_jit_compiled_iseq
  have h0 : size ≠ 0 := by omega
  simp [h0, h2]

theorem allocate_chunk_some (E : Env) (pool : List rb_jit_code_cache) (iseq : rb_iseq_t)
    (size : Nat) (c : rb_jit_code_chunk)
    (h : (rb_iseq_allocate_jit_compiled_iseq E pool iseq size).chunk = some c) :
    ∃ k, (rb_iseq_allocate_jit_compiled_iseq E pool iseq size).ret = some k := by
  unfold rb_iseq_allocate_jit_compiled_iseq at h ⊢
  by_cases h0 : size = 0
  · simp [h0] at h
  · cases hs : scan_caches E size pool with
    | none => simp [h0, hs] at h
    | some v => simp [h0, hs]

theorem allocate_chunk_mem (E : Env) (pool : List rb_jit_code_cache) (iseq : rb_iseq_t)
    (size : Nat) (c : rb_jit_code_chunk)
    (h : (rb_iseq_allocate_jit_compiled_iseq E pool iseq size).chunk = some c) :
    ∃ m ∈ all_nodes pool, m.addr = c.addr ∧ size ≤ m.size := by
  obtain ⟨k, hk⟩ := allocate_chunk_some E pool iseq size c h
  obtain ⟨_, before, cache, after, p, node, q, h1, _, h3, _, _, h6, h7⟩ :=
    allocate_some E pool iseq size k hk
  rw [h7] at h
  simp only [Option.some.injEq] at h
  refine ⟨node, ?_, by rw [← h], h6⟩
  rw [h1, all_nodes_append]
  simp [all_nodes, h3]

theorem allocate_iseq_fields (E : Env) (pool : List rb_jit_code_cache) (iseq : rb_iseq_t)
    (size : Nat) :
    (rb_iseq_allocate_jit_compiled_iseq E pool iseq size).iseq.iseq = iseq.iseq ∧
      (rb_iseq_allocate_jit_compiled_iseq E pool iseq size).iseq.iseq_size
        = iseq.iseq_size := by
  unfold rb_iseq_allocate_jit_compiled_iseq
  by_cases h0 : size = 0
  · simp [h0]
  · cases hs : scan_caches E size pool with
    | none => simp [h0]
    | some v => simp [h0]

theorem getElem?_append_cons_length (before after : List rb_jit_code_cache)
    (x : rb_jit_code_cache) : (before ++ x :: after)[before.length]? = some x := by
  induction before with
  | nil => simp
  | cons c rest ih => simpa using ih

theorem getElem?_append_cons_ne (before after : List rb_jit_code_cache)
    (x y : rb_jit_code_cache) :
    ∀ j, j ≠ before.length → (before ++ x :: after)[j]? = (before ++ y :: after)[j]? := by
  induction before with
  | nil =>
    intro j hj
    cases j with
    | zero => exact absurd rfl hj
    | succ j => simp
  | cons c rest ih =>
    intro j hj
    cases j with
    | zero => simp
    | succ j =>
      simp only [List.cons_append, List.getElem?_cons_succ]
      exact ih j (fun h => hj (by simp [h]))

theorem allocate_ret_none (E : Env) (pool : List rb_jit_code_cache) (iseq : rb_iseq_t)
    (size : Nat)
    (h : (rb_iseq_allocate_jit_compiled_iseq E pool iseq size).ret = none) :
    rb_iseq_allocate_jit_compiled_iseq E pool iseq size =
      { ret := none, pool := pool, iseq := iseq, chunk := none } := by
  unfold rb_iseq_allocate_jit_compiled_iseq at h ⊢
  by_cases h0 : size = 0
  · simp [h0]
  · cases hs : scan_caches E size pool with
    | none => simp [h0]
    | some v => simp [h0, hs] at h

theorem allocate_ret_none_no_fit (E : Env) (pool : List rb_jit_code_cache)
    (iseq : rb_iseq_t) (size : Nat) (hsize : 0 < size)
    (h : (rb_iseq_allocate_jit_compiled_iseq E pool iseq size).ret = none) :
    no_fit size pool := by
  unfold rb_iseq_allocate_jit_compiled_iseq at h
  have h0 : size ≠ 0 := by omega
  cases hs : scan_caches E size pool with
  | none => exact (scan_caches_none E size pool).mp hs
  | some v => simp [h0, hs] at h

theorem scan_free_list_steps_le (size : Nat) (fl : List rb_jit_free_list) :
    scan_free_list_steps size fl ≤ fl.length := by
  induction fl with
  | nil => simp [scan_free_list_steps]
  | cons n rest ih =>
    by_cases h : n.size ≥ size
    · simp [scan_free_list_steps, h]
    · simp only [scan_free_list_steps, h, if_false, List.length_cons]
      omega

theorem scan_caches_steps_le (E : Env) (size : Nat) (pool : List rb_jit_code_cache) :
    scan_caches_steps E size pool ≤ (all_nodes pool).length := by
  induction pool with
  | nil => simp [scan_caches_steps, all_nodes]
  | cons c rest ih =>
    have h1 := scan_free_list_steps_le size c.free_list
    cases hs : scan_free_list E size c.free_list with
    | some v =>
      simp only [scan_caches_steps, hs, all_nodes, List.length_append]
      omega
    | none =>
      simp only [scan_caches_steps, hs, all_nodes, List.length_append]
      omega

/-! ## Lemmas on the compiler -/

theorem compile_inv (E : Env) (fuel : Nat) (M : Machine) (iseq : rb_iseq_t)
    (table : List Nat) (end_insns : Nat) (out : Outcome) (M1 : Machine) (iseq1 : rb_iseq_t)
    (h : rb_iseq_jit_compile E fuel M iseq table end_insns = some (out, M1, iseq1)) :
    ∃ size, rb_iseq_jit_compiled_size E fuel iseq table end_insns = some size ∧
      iseq1 = (rb_iseq_allocate_jit_compiled_iseq E M.jit_code_cache iseq size).iseq ∧
      M1.jit_code_cache =
        (rb_iseq_allocate_jit_compiled_iseq E M.jit_code_cache iseq size).pool ∧
      ((out = Outcome.returned (-1) ∧ iseq1.jit_compiled_iseq = 0 ∧
          M1.trace = M.trace ∧ M1.mem = M.mem ∧ M1.prot = M.prot) ∨
       (iseq1.jit_compiled_iseq ≠ 0 ∧ ∃ k cache,
          (rb_iseq_allocate_jit_compiled_iseq E M.jit_code_cache iseq size).ret = some k ∧
          (rb_iseq_allocate_jit_compiled_iseq E M.jit_code_cache iseq size).pool[k]?
            = some cache ∧
          ((E.mprotect cache.start cache.size (PROT_READ ||| PROT_WRITE) ≠ 0 ∧
              out = Outcome.sys_fail ∧
              M1.trace = M.trace ++
                [Event.mprotect cache.start cache.size (PROT_READ ||| PROT_WRITE)
                  (E.mprotect cache.start cache.size (PROT_READ ||| PROT_WRITE))] ∧
              M1.mem = M.mem ∧ M1.prot = M.prot) ∨
           (E.mprotect cache.start cache.size (PROT_READ ||| PROT_WRITE) = 0 ∧
              (∀ j ∈ instruction_starts E iseq, 1 ≤ E.insn_len (opcode_at iseq j) ∧
                0 ≤ template_length E table end_insns (opcode_at iseq j)) ∧
              M1.mem = run_copies M.mem
                (copies_from E iseq table end_insns iseq1.jit_compiled_iseq
                  (instruction_starts E iseq)) ∧
              M1.trace = M.trace ++
                Event.mprotect cache.start cache.size (PROT_READ ||| PROT_WRITE) 0 ::
                  (copies_from E iseq table end_insns iseq1.jit_compiled_iseq
                      (instruction_starts E iseq) ++
                    [Event.mprotect cache.start cache.size (PROT_READ ||| PROT_EXEC)
                      (E.mprotect cache.start cache.size (PROT_READ ||| PROT_EXEC))]) ∧
              ((E.mprotect cache.start cache.size (PROT_READ ||| PROT_EXEC) ≠ 0 ∧
                  out = Outcome.sys_fail ∧
                  M1.prot = set_prot M.prot cache.start cache.size
                    (PROT_READ ||| PROT_WRITE)) ∨
               (E.mprotect cache.start cache.size (PROT_READ ||| PROT_EXEC) = 0 ∧
                  out = Outcome.returned 0 ∧
                  M1.prot = set_prot
                    (set_prot M.prot cache.start cache.size (PROT_READ ||| PROT_WRITE))
                    cache.start cache.size (PROT_READ ||| PROT_EXEC))))))) := by
  unfold rb_iseq_jit_compile at h
  cases hsz : rb_iseq_jit_compiled_size E fuel iseq table end_insns with
  | none => simp [hsz] at h
  | some size =>
    refine ⟨size, rfl, ?_⟩
    simp only [hsz] at h
    obtain ⟨hf1, hf2⟩ := allocate_iseq_fields E M.jit_code_cache iseq size
    generalize rb_iseq_allocate_jit_compiled_iseq E M.jit_code_cache iseq size = r
      at h hf1 hf2 ⊢
    by_cases hcode : r.iseq.jit_compiled_iseq = 0
    · simp only [hcode, if_true, Option.some.injEq, Prod.mk.injEq] at h
      obtain ⟨h1, h2, h3⟩ := h
      subst h1 h2 h3
      exact ⟨rfl, rfl, Or.inl ⟨rfl, hcode, rfl, rfl, rfl⟩⟩
    · simp only [hcode, if_false] at h
      cases hb : r.ret.bind (fun k => r.pool[k]?) with
      | none => simp [hb] at h
      | some cache =>
        obtain ⟨k, hk, hc⟩ := Option.bind_eq_some.mp hb
        simp only [hb] at h
        by_cases hw : E.mprotect cache.start cache.size (PROT_READ ||| PROT_WRITE) = 0
        · rw [enable_write_ok E _ cache hw] at h
          simp only at h
          rw [copy_loop_congr E iseq r.iseq table end_insns hf1 hf2] at h
          cases hcl : copy_loop E iseq table end_insns fuel 0 r.iseq.jit_compiled_iseq
              { jit_code_cache := r.pool, chunks := M.chunks ++ r.chunk.toList,
                mem := M.mem,
                prot := set_prot M.prot cache.start cache.size (PROT_READ ||| PROT_WRITE),
                trace := M.trace ++
                  [Event.mprotect cache.start cache.size (PROT_READ ||| PROT_WRITE) 0] }
            with
          | none => simp [hcl] at h
          | some v =>
            obtain ⟨c, M3⟩ := v
            simp only [hcl] at h
            obtain ⟨g1, g2, _, g4⟩ := copy_loop_some E iseq table end_insns fuel 0 _ _ c M3 hcl
            have hst : starts_from E iseq fuel 0 = instruction_starts E iseq := by
              rw [g1]; rfl
            rw [hst] at g2 g4
            by_cases hx : E.mprotect cache.start cache.size (PROT_READ ||| PROT_EXEC) = 0
            · rw [enable_execution_ok E _ cache hx] at h
              simp only [Option.some.injEq, Prod.mk.injEq] at h
              obtain ⟨h1, h2, h3⟩ := h
              subst h1 h2 h3
              refine ⟨rfl, ?_, Or.inr ⟨hcode, k, cache, hk, hc, Or.inr ⟨hw, g2, ?_, ?_,
                Or.inr ⟨hx, rfl, ?_⟩⟩⟩⟩
              · rw [g4]
              · rw [g4]
              · rw [g4, hx]; simp
              · rw [g4]
            · rw [enable_execution_fail E _ cache hx] at h
              simp only [Option.some.injEq, Prod.mk.injEq] at h
              obtain ⟨h1, h2, h3⟩ := h
              subst h1 h2 h3
              refine ⟨rfl, ?_, Or.inr ⟨hcode, k, cache, hk, hc, Or.inr ⟨hw, g2, ?_, ?_,
                Or.inl ⟨hx, rfl, ?_⟩⟩⟩⟩
              · rw [g4]
              · rw [g4]
              · rw [g4]; simp
              · rw [g4]
        · rw [enable_write_fail E _ cache hw] at h
          simp only [Option.some.injEq, Prod.mk.injEq] at h
          obtain ⟨h1, h2, h3⟩ := h
          subst h1 h2 h3
          exact ⟨rfl, rfl, Or.inr ⟨hcode, k, cache, hk, hc, Or.inl ⟨hw, rfl, rfl, rfl, rfl⟩⟩⟩

theorem compiled_size_of_empty (E : Env) (fuel : Nat) (iseq : rb_iseq_t) (table : List Nat)
    (end_insns : Nat) (hempty : iseq.iseq_size = 0) :
    rb_iseq_jit_compiled_size E fuel iseq table end_insns = some 0 := by
  unfold rb_iseq_jit_compiled_size
  cases fuel <;> simp [compiled_size_loop, hempty]

theorem compile_of_failed_allocation (E : Env) (fuel : Nat) (M : Machine) (iseq : rb_iseq_t)
    (table : List Nat) (end_insns size : Nat) (hptr : iseq.jit_compiled_iseq = 0)
    (hsz : rb_iseq_jit_compiled_size E fuel iseq table end_insns = some size)
    (h : size = 0 ∨ no_fit size M.jit_code_cache) :
    rb_iseq_jit_compile E fuel M iseq table end_insns =
      some (Outcome.returned (-1), M, iseq) := by
  have hal := allocate_none E M.jit_code_cache iseq size h
  simp [rb_iseq_jit_compile, hsz, hal, hptr]

/-- C1 as stated fails: over the table with bodies at 100, 130 and 120, the unit
`[0, 7, 1]` has a valid opcode of length at least one at each instruction start;
the size pass returns 20 (30 for opcode 0 and -10 for opcode 1, added in
`size_t`), while the copy loop first copies the 30 bytes of opcode 0 and then
has no defined copy for opcode 1, whatever the fuel, the payload start and the
state: no final cursor lies 20 bytes after the start. -/
theorem descending_template_breaks_copy :
    env64.VM_INSTRUCTION_SIZE ≤ table_desc.length ∧
      (∀ i ∈ instruction_starts env64 unit_desc, valid_start env64 unit_desc i) ∧
      rb_iseq_jit_compiled_size env64 3 unit_desc table_desc 125 = some 20 ∧
      template_size env64 table_desc 125 (opcode_at unit_desc 0) = 30 ∧
      template_length env64 table_desc 125 (opcode_at unit_desc 2) = -10 ∧
      ∀ (fuel code : Nat) (M : Machine),
        copy_loop env64 unit_desc table_desc 125 fuel 0 code M = none := by
  refine ⟨by decide, by decide, by decide, by decide, by decide, ?_⟩
  intro fuel code M
  rcases fuel with _ | _ | fuel <;>
    simp [copy_loop, unit_desc, table_desc, template_bounds, env64]

/-- C1, amended: for a unit whose instruction starts hold valid opcodes of
length at least one, over a table with an entry per opcode in which no template
of the unit ends before it starts and whose total for the unit fits `size_t`:
the size pass returns a size and the copy loop, run from any payload start
`code`, ends with its final cursor exactly that size after `code`.  Its effects
are one copy per instruction and nothing else, the copies the specification
asks for: the first to `code`, each next one to where the one before it ended,
the last ending at `code + size`, their lengths adding up to the size, and
memory afterwards is memory with these copies made.  So the copy writes
`[code, code + size)`, all of it and nothing past it. -/
theorem copy_writes_exactly_compiled_size (E : Env) (iseq : rb_iseq_t)
    (table : List Nat) (end_insns fuel code : Nat) (M : Machine)
    (htab : E.VM_INSTRUCTION_SIZE ≤ table.length)
    (hvalid : ∀ i ∈ instruction_starts E iseq, valid_start E iseq i)
    (hlen : ∀ i ∈ instruction_starts E iseq,
      0 ≤ template_length E table end_insns (opcode_at iseq i))
    (hfit : sum_template_lengths E iseq table end_insns (instruction_starts E iseq)
      < (E.SIZE_MOD : Int))
    (hfuel : iseq.iseq_size ≤ fuel) :
    ∃ size cursor M1,
      rb_iseq_jit_compiled_size E fuel iseq table end_insns = some size ∧
      copy_loop E iseq table end_insns fuel 0 code M = some (cursor, M1) ∧
      code ≤ cursor ∧ cursor - code = size ∧
      M1.trace = M.trace ++
        copies_from E iseq table end_insns code (instruction_starts E iseq) ∧
      (M1.trace.drop M.trace.length).length = (instruction_starts E iseq).length ∧
      consecutive_copies code (M1.trace.drop M.trace.length) (code + size) ∧
      bytes_written (M1.trace.drop M.trace.length) = size ∧
      M1.mem = run_copies M.mem (M1.trace.drop M.trace.length) ∧
      ∀ dst src n, Event.memcpy dst src n ∈ M1.trace.drop M.trace.length →
        code ≤ dst ∧ dst + n ≤ code + size := by
  have hc := copied_bytes_cast E iseq table end_insns (instruction_starts E iseq) hlen
  have hs := compiled_size_value E iseq table end_insns fuel htab hvalid hfuel
  have hcopy := copy_loop_eq E iseq table end_insns htab iseq.iseq_size fuel 0 code M
    (by omega) hfuel (fun j hj => ⟨hvalid j hj, hlen j hj⟩)
  have hsize : (sum_template_lengths E iseq table end_insns (instruction_starts E iseq)
      % (E.SIZE_MOD : Int)).toNat =
      copied_bytes E iseq table end_insns (instruction_starts E iseq) := by
    rw [← hc] at hfit ⊢
    rw [Int.emod_eq_of_lt (by omega) hfit]
    simp
  rw [hsize] at hs
  refine ⟨_, _, _, hs, hcopy, by omega, ?_, rfl, ?_, ?_, ?_, ?_, ?_⟩
  · simp [instruction_starts]
  · simp only [List.drop_left]
    exact length_copies_from E iseq table end_insns _ code
  · simp only [List.drop_left]
    exact consecutive_copies_copies_from E iseq table end_insns _ code
  · simp only [List.drop_left]
    exact bytes_written_copies_from E iseq table end_insns _ code
  · simp only [List.drop_left]
  · intro dst src n hmem
    simp only [List.drop_left] at hmem
    exact copies_from_bounds E iseq table end_insns _ code dst src n hmem

/-- Witness of C1, amended: `unit3` over `table3`, copied to address 4208: three
copies, of 10, 25 and 15 bytes, 50 bytes in all. -/
theorem copy_writes_exactly_compiled_size_witness :
    ∃ size cursor M1,
      rb_iseq_jit_compiled_size env64 6 unit3 table3 150 = some size ∧
      copy_loop env64 unit3 table3 150 6 0 4208 machine0 = some (cursor, M1) ∧
      4208 ≤ cursor ∧ cursor - 4208 = size ∧
      M1.trace = machine0.trace ++
        copies_from env64 unit3 table3 150 4208 (instruction_starts env64 unit3) ∧
      (M1.trace.drop machine0.trace.length).length
        = (instruction_starts env64 unit3).length ∧
      consecutive_copies 4208 (M1.trace.drop machine0.trace.length) (4208 + size) ∧
      bytes_written (M1.trace.drop machine0.trace.length) = size ∧
      M1.mem = run_copies machine0.mem (M1.trace.drop machine0.trace.length) ∧
      ∀ dst src n, Event.memcpy dst src n ∈ M1.trace.drop machine0.trace.length →
        4208 ≤ dst ∧ dst + n ≤ 4208 + size :=
  copy_writes_exactly_compiled_size env64 unit3 table3 150 6 4208 machine0
    (by decide) (by decide) (by decide) (by decide) (by decide)

/-- C2: whenever `rb_iseq_jit_compile` returns 0, the copies it made are, in
bytecode order, one copy of the whole template `[table[insn], end(insn))` per
instruction visited by the walk, the first to the unit's compiled pointer and
each next one to the position right after the previous copy; so, the templates
lying outside the payload, the bytes from the compiled pointer on are exactly
the concatenation of the template bytes in bytecode order. -/
theorem compile_success_payload_is_templates (E : Env) (fuel : Nat) (M : Machine)
    (iseq : rb_iseq_t) (table : List Nat) (end_insns : Nat) (M1 : Machine)
    (iseq1 : rb_iseq_t)
    (h : rb_iseq_jit_compile E fuel M iseq table end_insns =
      some (Outcome.returned 0, M1, iseq1))
    (hsep : ∀ i ∈ instruction_starts E iseq,
      table.getD (opcode_at iseq i) 0 + template_size E table end_insns (opcode_at iseq i)
          ≤ iseq1.jit_compiled_iseq ∨
        iseq1.jit_compiled_iseq +
            copied_bytes E iseq table end_insns (instruction_starts E iseq)
          ≤ table.getD (opcode_at iseq i) 0) :
    iseq1.jit_compiled_iseq ≠ 0 ∧
      (M1.trace.drop M.trace.length).filter is_memcpy =
        copies_from E iseq table end_insns iseq1.jit_compiled_iseq
          (instruction_starts E iseq) ∧
      read_bytes M1.mem iseq1.jit_compiled_iseq
          (copied_bytes E iseq table end_insns (instruction_starts E iseq)) =
        expected_payload E iseq table end_insns M.mem (instruction_starts E iseq) := by
  obtain ⟨size, _, _, _, hcase⟩ := compile_inv E fuel M iseq table end_insns _ M1 iseq1 h
  rcases hcase with ⟨hout, _⟩ | ⟨hcode, k, cache, _, _, hcase⟩
  · simp at hout
  · rcases hcase with ⟨_, hout, _⟩ | ⟨_, _, hmem, htrace, _⟩
    · cases hout
    · refine ⟨hcode, ?_, ?_⟩
      · rw [htrace, List.drop_left]
        simp [List.filter_cons, is_memcpy, filter_is_memcpy_copies_from]
      · rw [hmem]
        exact run_copies_payload E iseq table end_insns _ _ _ hsep

/-- Witness of C2: compiling `unit3` from `machine0` returns 0 with payload at
4208, and the 50 bytes there are the templates of opcodes 0, 2 and 1 in that
order (the byte at address `a` of `machine0` is `a % 256`). -/
theorem compile_success_payload_is_templates_witness :
    ∃ M1 iseq1, rb_iseq_jit_compile env64 6 machine0 unit3 table3 150 =
        some (Outcome.returned 0, M1, iseq1) ∧
      iseq1.jit_compiled_iseq = 4208 ∧
      (M1.trace.drop machine0.trace.length).filter is_memcpy =
        [Event.memcpy 4208 100 10, Event.memcpy 4218 125 25, Event.memcpy 4243 110 15] ∧
      read_bytes M1.mem 4208 50 =
        [100, 101, 102, 103, 104, 105, 106, 107, 108, 109,
         125, 126, 127, 128, 129, 130, 131, 132, 133, 134, 135, 136, 137, 138, 139,
         140, 141, 142, 143, 144, 145, 146, 147, 148, 149,
         110, 111, 112, 113, 114, 115, 116, 117, 118, 119, 120, 121, 122, 123, 124] := by
  have h : rb_iseq_jit_compile env64 6 machine0 unit3 table3 150 =
      some (Outcome.returned 0,
        ((rb_iseq_jit_compile env64 6 machine0 unit3 table3 150).getD
          (Outcome.sys_fail, machine0, unit3)).2.1,
        ((rb_iseq_jit_compile env64 6 machine0 unit3 table3 150).getD
          (Outcome.sys_fail, machine0, unit3)).2.2) := rfl
  have hw := compile_success_payload_is_templates env64 6 machine0 unit3 table3 150 _ _ h
    (by decide)
  exact ⟨_, _, h, rfl, hw.2.1, hw.2.2⟩

/-- C3: with a table entry for every opcode and, at every instruction start, a
valid opcode of length at least one, `rb_iseq_jit_compiled_size` returns (given
fuel for `iseq_size` iterations) the sum over the instruction starts of the
template lengths, as a `size_t`: the sum modulo `SIZE_MOD`, which is the sum
itself when that fits.  Only instruction starts are assumed to hold opcodes, and
cutting the table down to exactly `VM_INSTRUCTION_SIZE` entries gives the same
result: the entry after the last opcode is not read. -/
theorem compiled_size_eq_sum_template_lengths (E : Env) (iseq : rb_iseq_t)
    (table : List Nat) (end_insns fuel : Nat)
    (htab : E.VM_INSTRUCTION_SIZE ≤ table.length)
    (hvalid : ∀ i ∈ instruction_starts E iseq, valid_start E iseq i)
    (hfuel : iseq.iseq_size ≤ fuel) :
    rb_iseq_jit_compiled_size E fuel iseq table end_insns =
        some ((sum_template_lengths E iseq table end_insns (instruction_starts E iseq)
          % (E.SIZE_MOD : Int)).toNat) ∧
      (0 ≤ sum_template_lengths E iseq table end_insns (instruction_starts E iseq) →
        sum_template_lengths E iseq table end_insns (instruction_starts E iseq)
          < (E.SIZE_MOD : Int) →
        (rb_iseq_jit_compiled_size E fuel iseq table end_insns).map (fun s => (s : Int)) =
          some (sum_template_lengths E iseq table end_insns (instruction_starts E iseq))) ∧
      rb_iseq_jit_compiled_size E fuel iseq (table.take E.VM_INSTRUCTION_SIZE) end_insns =
        rb_iseq_jit_compiled_size E fuel iseq table end_insns := by
  have key : ∀ tbl : List Nat, E.VM_INSTRUCTION_SIZE ≤ tbl.length →
      rb_iseq_jit_compiled_size E fuel iseq tbl end_insns =
        some ((sum_template_lengths E iseq tbl end_insns (instruction_starts E iseq)
          % (E.SIZE_MOD : Int)).toNat) :=
    fun tbl ht => compiled_size_value E iseq tbl end_insns fuel ht hvalid hfuel
  refine ⟨key table htab, ?_, ?_⟩
  · intro h0 h1
    rw [key table htab, Int.emod_eq_of_lt h0 h1]
    simp [Int.toNat_of_nonneg h0]
  · rw [key table htab, key _ (by simp [htab]), sum_template_lengths_take E iseq table
      end_insns _ hvalid]

/-- Witness of C3: the unit `[0, 999, 2, 77, 78, 1]` over a table of exactly three
entries, whose last instruction is the last opcode, has compiled size
`10 + 25 + 15`. -/
theorem compiled_size_eq_sum_template_lengths_witness :
    rb_iseq_jit_compiled_size env64 6 unit3 table3 150 = some 50 := by
  have h := (compiled_size_eq_sum_template_lengths env64 unit3 table3 150 6
    (by decide) (by decide) (by decide)).1
  rw [h]
  decide

/-- C4: the allocator succeeds only for a request `size > 0`, and when it does the
node it selects is the first node, in pool order and then free-list order, whose size is at
least `size`: every node before it in that order is smaller than the request,
whatever comes after it.  The payload pointer stored in the unit is that node's
address plus the chunk-header size, and the region returned is the one holding
the node. -/
theorem allocate_selects_first_fit (E : Env) (pool : List rb_jit_code_cache)
    (iseq : rb_iseq_t) (size k : Nat)
    (hret : (rb_iseq_allocate_jit_compiled_iseq E pool iseq size).ret = some k) :
    0 < size ∧ ∃ before cache after p node q,
      pool = before ++ cache :: after ∧ before.length = k ∧
      cache.free_list = p ++ node :: q ∧
      all_nodes pool = (all_nodes before ++ p) ++ node :: (q ++ all_nodes after) ∧
      (∀ m ∈ all_nodes before ++ p, m.size < size) ∧ size ≤ node.size ∧
      (rb_iseq_allocate_jit_compiled_iseq E pool iseq size).iseq.jit_compiled_iseq =
        node.addr + E.sizeof_chunk ∧
      ((rb_iseq_allocate_jit_compiled_iseq E pool iseq size).chunk.map
        (fun c => c.addr)) = some node.addr := by
  obtain ⟨h0, before, cache, after, p, node, q, h1, h2, h3, h4, h5, h6, h7⟩ :=
    allocate_some E pool iseq size k hret
  refine ⟨h0, before, cache, after, p, node, q, h1, h2, h3, ?_, ?_, h6, ?_, ?_⟩
  · rw [h1, all_nodes_append]
    simp [all_nodes, h3]
  · intro m hm
    rcases List.mem_append.mp hm with hm | hm
    · exact (no_fit_all_nodes size before).mp h4 m hm
    · exact h5 m hm
  · rw [h7]
  · rw [h7]; rfl

/-- Witness of C4: free list `[32, 128, 64]` and request 50: the 128-byte node at
4200 is selected (payload 4208), not the 64-byte node at 4400. -/
theorem allocate_selects_first_fit_witness :
    (rb_iseq_allocate_jit_compiled_iseq env64 pool3 unit3 50).iseq.jit_compiled_iseq = 4208 ∧
    (0 < 50 ∧ ∃ before cache after p node q,
      pool3 = before ++ cache :: after ∧ before.length = 0 ∧
      cache.free_list = p ++ node :: q ∧
      all_nodes pool3 = (all_nodes before ++ p) ++ node :: (q ++ all_nodes after) ∧
      (∀ m ∈ all_nodes before ++ p, m.size < 50) ∧ 50 ≤ node.size ∧
      (rb_iseq_allocate_jit_compiled_iseq env64 pool3 unit3 50).iseq.jit_compiled_iseq =
        node.addr + env64.sizeof_chunk ∧
      ((rb_iseq_allocate_jit_compiled_iseq env64 pool3 unit3 50).chunk.map
        (fun c => c.addr)) = some node.addr) :=
  ⟨by decide, allocate_selects_first_fit env64 pool3 unit3 50 0 (by decide)⟩

/-- C5: let the first node that fits a request `size > 0` have a size of at most
`size` plus the chunk-header size (in particular exactly `size`), with
`size + sizeof(chunk)` representable in `size_t`.  Then the allocator succeeds,
returns the node's region, and leaves that region's free list equal to the old
list without that node, the other nodes and all other regions untouched and in
order.  With node addresses pairwise distinct, a further allocation of the same
size from the resulting pool never yields a chunk at that node's address. -/
theorem exact_fit_removes_node (E : Env) (before after : List rb_jit_code_cache)
    (cache : rb_jit_code_cache) (p q : List rb_jit_free_list) (node : rb_jit_free_list)
    (iseq : rb_iseq_t) (size : Nat) (hsize : 0 < size) (hbefore : no_fit size before)
    (hfl : cache.free_list = p ++ node :: q) (hp : ∀ m ∈ p, m.size < size)
    (hnode : size ≤ node.size) (hexact : node.size ≤ size + E.sizeof_chunk)
    (hwrap : size + E.sizeof_chunk < E.SIZE_MOD)
    (hnodup : ((all_nodes (before ++ cache :: after)).map (fun m => m.addr)).Nodup) :
    (rb_iseq_allocate_jit_compiled_iseq E (before ++ cache :: after) iseq size).ret =
        some before.length ∧
      (rb_iseq_allocate_jit_compiled_iseq E (before ++ cache :: after) iseq
        size).iseq.jit_compiled_iseq = node.addr + E.sizeof_chunk ∧
      (rb_iseq_allocate_jit_compiled_iseq E (before ++ cache :: after) iseq size).pool =
        before ++ { cache with free_list := p ++ q } :: after ∧
      ∀ (iseq2 : rb_iseq_t) (c2 : rb_jit_code_chunk),
        (rb_iseq_allocate_jit_compiled_iseq E
          (rb_iseq_allocate_jit_compiled_iseq E (before ++ cache :: after) iseq size).pool
          iseq2 size).chunk = some c2 → c2.addr ≠ node.addr := by
  have hal := allocate_split E before after cache p q node iseq size hsize hbefore hfl hp
    hnode
  have hno : ¬ node.size > (size + E.sizeof_chunk) % E.SIZE_MOD := by
    rw [Nat.mod_eq_of_lt hwrap]; omega
  simp only [hno, if_false, List.append_nil] at hal
  rw [hal]
  refine ⟨rfl, rfl, rfl, ?_⟩
  intro iseq2 c2 h2
  obtain ⟨m, hm, hma, _⟩ := allocate_chunk_mem E _ iseq2 size c2 h2
  rw [all_nodes_append] at hm hnodup
  simp only [all_nodes, hfl, List.append_assoc, List.map_append, List.map_cons,
    List.mem_append] at hm hnodup
  intro hc
  have hdis := List.nodup_append.mp hnodup
  have hdis2 := List.nodup_append.mp hdis.2.1
  have hn3 := List.nodup_cons.mp hdis2.2.1
  have hin : ∀ l : List rb_jit_free_list, m ∈ l → node.addr ∈ l.map (fun m => m.addr) :=
    fun l hl => List.mem_map.mpr ⟨m, hl, by rw [hma, hc]⟩
  rcases hm with hm | hm | hm | hm
  · exact hdis.2.2 (hin _ hm) (by simp)
  · exact hdis2.2.2 (hin _ hm) (by simp)
  · exact hn3.1 (by simpa using Or.inl (hin _ hm))
  · exact hn3.1 (by simpa using Or.inr (hin _ hm))

/-- Witness of C5: a request for 128 bytes from the free list `[32, 128, 64]`. -/
theorem exact_fit_removes_node_witness :
    (rb_iseq_allocate_jit_compiled_iseq env64 pool3 unit3 128).ret = some 0 ∧
      (rb_iseq_allocate_jit_compiled_iseq env64 pool3 unit3 128).iseq.jit_compiled_iseq =
        4200 + env64.sizeof_chunk ∧
      (rb_iseq_allocate_jit_compiled_iseq env64 pool3 unit3 128).pool =
        [{ start := 4096, size := 4096, free_list := [⟨4096, 32⟩, ⟨4400, 64⟩] }] ∧
      ∀ (iseq2 : rb_iseq_t) (c2 : rb_jit_code_chunk),
        (rb_iseq_allocate_jit_compiled_iseq env64
          (rb_iseq_allocate_jit_compiled_iseq env64 pool3 unit3 128).pool
          iseq2 128).chunk = some c2 → c2.addr ≠ 4200 :=
  exact_fit_removes_node env64 [] []
    { start := 4096, size := 4096, free_list := [⟨4096, 32⟩, ⟨4200, 128⟩, ⟨4400, 64⟩] }
    [⟨4096, 32⟩] [⟨4400, 64⟩] ⟨4200, 128⟩ unit3 128
    (by decide) (by decide) rfl (by decide) (by decide) (by decide) (by decide) (by decide)

/-- C6, at an input where the code breaks it: from a pool with one free node of
100 bytes, two successive allocations of 10 bytes both succeed, the node is
still in the free list after the first (showing size 18), and both calls store
the same payload pointer 4104. -/
theorem oversized_node_handed_out_twice :
    (rb_iseq_allocate_jit_compiled_iseq env64 pool1 unit3 10).ret = some 0 ∧
      (rb_iseq_allocate_jit_compiled_iseq env64 pool1 unit3 10).iseq.jit_compiled_iseq
        = 4104 ∧
      all_nodes (rb_iseq_allocate_jit_compiled_iseq env64 pool1 unit3 10).pool
        = [⟨4096, 18⟩] ∧
      (rb_iseq_allocate_jit_compiled_iseq env64
        (rb_iseq_allocate_jit_compiled_iseq env64 pool1 unit3 10).pool unit3 10).ret
        = some 0 ∧
      (rb_iseq_allocate_jit_compiled_iseq env64
        (rb_iseq_allocate_jit_compiled_iseq env64 pool1 unit3 10).pool unit3
        10).iseq.jit_compiled_iseq = 4104 := by
  decide

/-- C7: for a unit with an empty compiled pointer and a computed size (zero or
not), if no free-list node of any region has at least that size, then
`rb_iseq_jit_compile` returns -1 and leaves the unit and the whole process state
as they were: pointer still empty, every free list unchanged, no protection
change and no copy in the trace. -/
theorem compile_fails_when_no_node_fits (E : Env) (fuel : Nat) (M : Machine)
    (iseq : rb_iseq_t) (table : List Nat) (end_insns size : Nat)
    (hptr : iseq.jit_compiled_iseq = 0)
    (hsz : rb_iseq_jit_compiled_size E fuel iseq table end_insns = some size)
    (hnone : no_fit size M.jit_code_cache) :
    rb_iseq_jit_compile E fuel M iseq table end_insns =
      some (Outcome.returned (-1), M, iseq) := by
  have hal := allocate_none E M.jit_code_cache iseq size (Or.inr hnone)
  simp [rb_iseq_jit_compile, hsz, hal, hptr]

/-- Witness of C7: `unit3` needs 50 bytes, the nodes have 32 and 40. -/
theorem compile_fails_when_no_node_fits_witness :
    rb_iseq_jit_compile env64 6 machine_small unit3 table3 150 =
      some (Outcome.returned (-1), machine_small, unit3) :=
  compile_fails_when_no_node_fits env64 6 machine_small unit3 table3 150 50
    (by decide) (by decide) (by decide)

/-- C8, at inputs where the code breaks it: `unit3`, pointer empty on entry,
is compiled from a state whose pages are writable, so that the header store of
the allocator is allowed.  With the write request refused,
`rb_iseq_jit_compile` ends in `rb_sys_fail` before any copy, memory as before,
and the unit's pointer is 4208; with the execute request refused, it ends in
`rb_sys_fail` after the copies and the pointer is 4208 as well.  In both cases
page 4208 is not executable, and the next `vm_exec_jit` on the unit runs no
compile and goes to 4208. -/
theorem pointer_left_set_after_failed_toggle :
    unit3.jit_compiled_iseq = 0 ∧
      header_store_allowed machine_fresh.prot
        (rb_iseq_allocate_jit_compiled_iseq env64 machine_fresh.jit_code_cache unit3 50) ∧
      (∃ M1 iseq1, rb_iseq_jit_compile env_write_refused 6 machine_fresh unit3 table3 150 =
          some (Outcome.sys_fail, M1, iseq1) ∧
        iseq1.jit_compiled_iseq = 4208 ∧ M1.mem = machine_fresh.mem ∧
        ¬ executable (M1.prot 4208) ∧
        ∃ d, vm_exec_jit env_write_refused 6 M1 iseq1 table3 150 = some d ∧
          d.outcome = Control.jumped 4208 ∧ d.compiles = 0) ∧
      (∃ M1 iseq1, rb_iseq_jit_compile env_exec_refused 6 machine_fresh unit3 table3 150 =
          some (Outcome.sys_fail, M1, iseq1) ∧
        iseq1.jit_compiled_iseq = 4208 ∧ ¬ executable (M1.prot 4208) ∧
        ∃ d, vm_exec_jit env_exec_refused 6 M1 iseq1 table3 150 = some d ∧
          d.outcome = Control.jumped 4208 ∧ d.compiles = 0) :=
  ⟨rfl, by decide,
    ⟨_, _, rfl, rfl, rfl, by decide, _, rfl, rfl, rfl⟩,
    ⟨_, _, rfl, rfl, by decide, _, rfl, rfl, rfl⟩⟩

/-- C9: let the size be computed and the allocator have stored a payload pointer
and returned region `cache`.  If the protection change of
`enable_write_in_jit_code_cache` fails, `rb_iseq_jit_compile` ends in
`rb_sys_fail` with that request as its only effect: no byte copied, memory as
before, no request for execution.  If that change succeeds and the one of
`enable_execution_in_jit_code_cache` fails (the unit being walkable), it ends in
`rb_sys_fail` as well, so it does not return 0, and the failed request is its
last effect. -/
theorem toggle_failure_aborts_compile (E : Env) (fuel : Nat) (M : Machine)
    (iseq : rb_iseq_t) (table : List Nat) (end_insns size k : Nat)
    (cache : rb_jit_code_cache)
    (hsz : rb_iseq_jit_compiled_size E fuel iseq table end_insns = some size)
    (hk : (rb_iseq_allocate_jit_compiled_iseq E M.jit_code_cache iseq size).ret = some k)
    (hc : (rb_iseq_allocate_jit_compiled_iseq E M.jit_code_cache iseq size).pool[k]?
      = some cache)
    (hcode : (rb_iseq_allocate_jit_compiled_iseq E M.jit_code_cache iseq
      size).iseq.jit_compiled_iseq ≠ 0) :
    (E.mprotect cache.start cache.size (PROT_READ ||| PROT_WRITE) ≠ 0 →
      ∃ M1, rb_iseq_jit_compile E fuel M iseq table end_insns =
          some (Outcome.sys_fail, M1,
            (rb_iseq_allocate_jit_compiled_iseq E M.jit_code_cache iseq size).iseq) ∧
        M1.trace = M.trace ++
          [Event.mprotect cache.start cache.size (PROT_READ ||| PROT_WRITE)
            (E.mprotect cache.start cache.size (PROT_READ ||| PROT_WRITE))] ∧
        M1.mem = M.mem ∧ M1.prot = M.prot) ∧
    (E.mprotect cache.start cache.size (PROT_READ ||| PROT_WRITE) = 0 →
      E.mprotect cache.start cache.size (PROT_READ ||| PROT_EXEC) ≠ 0 →
      E.VM_INSTRUCTION_SIZE ≤ table.length →
      (∀ i ∈ instruction_starts E iseq, valid_start E iseq i ∧
        0 ≤ template_length E table end_insns (opcode_at iseq i)) →
      iseq.iseq_size ≤ fuel →
      ∃ M1, rb_iseq_jit_compile E fuel M iseq table end_insns =
          some (Outcome.sys_fail, M1,
            (rb_iseq_allocate_jit_compiled_iseq E M.jit_code_cache iseq size).iseq) ∧
        M1.trace = M.trace ++
          Event.mprotect cache.start cache.size (PROT_READ ||| PROT_WRITE) 0 ::
            (copies_from E iseq table end_insns
                (rb_iseq_allocate_jit_compiled_iseq E M.jit_code_cache iseq
                  size).iseq.jit_compiled_iseq (instruction_starts E iseq) ++
              [Event.mprotect cache.start cache.size (PROT_READ ||| PROT_EXEC)
                (E.mprotect cache.start cache.size (PROT_READ ||| PROT_EXEC))])) := by
  obtain ⟨hf1, hf2⟩ := allocate_iseq_fields E M.jit_code_cache iseq size
  simp only [rb_iseq_jit_compile, hsz]
  generalize rb_iseq_allocate_jit_compiled_iseq E M.jit_code_cache iseq size = r
    at hk hc hcode hf1 hf2 ⊢
  have hb : r.ret.bind (fun k => r.pool[k]?) = some cache := by
    rw [hk]; exact hc
  constructor
  · intro hw
    refine ⟨
      { jit_code_cache := r.pool, chunks := M.chunks ++ r.chunk.toList,
        mem := M.mem, prot := M.prot,
        trace := M.trace ++
          [Event.mprotect cache.start cache.size (PROT_READ ||| PROT_WRITE)
            (E.mprotect cache.start cache.size (PROT_READ ||| PROT_WRITE))] },
      ?_, rfl, rfl, rfl⟩
    simp only [hcode, if_false, hb, enable_write_fail E _ cache hw]
  · intro hw hx htab hvalid hfuel
    have hcl := copy_loop_eq E iseq table end_insns htab iseq.iseq_size fuel 0
      r.iseq.jit_compiled_iseq
      { jit_code_cache := r.pool, chunks := M.chunks ++ r.chunk.toList, mem := M.mem,
        prot := set_prot M.prot cache.start cache.size (PROT_READ ||| PROT_WRITE),
        trace := M.trace ++
          [Event.mprotect cache.start cache.size (PROT_READ ||| PROT_WRITE) 0] }
      (by omega) hfuel hvalid
    simp only [hcode, if_false, hb, enable_write_ok E _ cache hw,
      copy_loop_congr E iseq r.iseq table end_insns hf1 hf2, hcl,
      enable_execution_fail E _ cache hx]
    exact ⟨_, rfl, by simp [instruction_starts]⟩

/-- Witness of C9: compiling `unit3` from `machine0`, once with the write request
refused and once with the execute request refused. -/
theorem toggle_failure_aborts_compile_witness :
    (∃ M1, rb_iseq_jit_compile env_write_refused 6 machine0 unit3 table3 150 =
        some (Outcome.sys_fail, M1,
          (rb_iseq_allocate_jit_compiled_iseq env_write_refused machine0.jit_code_cache
            unit3 50).iseq) ∧
      M1.trace = machine0.trace ++ [Event.mprotect 4096 4096 3 (-1)] ∧
      M1.mem = machine0.mem ∧ M1.prot = machine0.prot) ∧
    (∃ M1, rb_iseq_jit_compile env_exec_refused 6 machine0 unit3 table3 150 =
        some (Outcome.sys_fail, M1,
          (rb_iseq_allocate_jit_compiled_iseq env_exec_refused machine0.jit_code_cache
            unit3 50).iseq) ∧
      M1.trace = machine0.trace ++
        Event.mprotect 4096 4096 3 0 ::
          ([Event.memcpy 4208 100 10, Event.memcpy 4218 125 25, Event.memcpy 4243 110 15] ++
            [Event.mprotect 4096 4096 5 (-1)])) :=
  ⟨(toggle_failure_aborts_compile env_write_refused 6 machine0 unit3 table3 150 50 0
      region3_after (by decide) (by decide) (by decide) (by decide)).1 (by decide),
   (toggle_failure_aborts_compile env_exec_refused 6 machine0 unit3 table3 150 50 0
      region3_after (by decide) (by decide) (by decide) (by decide)).2
      (by decide) (by decide) (by decide) (by decide) (by decide)⟩

/-- C10, at an input where the code breaks it: two units are compiled one after
the other into one region that starts out writable.  The first compile returns
0; its effects begin with the write request, yet the allocator call before it
has already stored a chunk header at 4200, inside the region.  It leaves the
region executable and not writable.  The allocator call of the second compile,
made before that compile's write request, returns the same region and stores a
chunk header at 4400, inside the region, a page that is not writable then. -/
theorem header_store_precedes_write_request :
    ∃ M1 iseq1, rb_iseq_jit_compile env64 6 machine_two unit3 table3 150 =
        some (Outcome.returned 0, M1, iseq1) ∧
      (rb_iseq_allocate_jit_compiled_iseq env64 machine_two.jit_code_cache unit3 50).chunk
        = some ⟨4200, 58⟩ ∧
      M1.trace.head? = some (Event.mprotect 4096 4096 (PROT_READ ||| PROT_WRITE) 0) ∧
      M1.trace.getLast? = some (Event.mprotect 4096 4096 (PROT_READ ||| PROT_EXEC) 0) ∧
      (executable (M1.prot 4400) ∧ ¬ writable (M1.prot 4400)) ∧
      (rb_iseq_allocate_jit_compiled_iseq env64 M1.jit_code_cache unit3 50).ret = some 0 ∧
      (rb_iseq_allocate_jit_compiled_iseq env64 M1.jit_code_cache unit3 50).chunk
        = some ⟨4400, 58⟩ ∧
      (4096 ≤ 4400 ∧ 4400 < 4096 + 4096) ∧
      ¬ header_store_allowed M1.prot
        (rb_iseq_allocate_jit_compiled_iseq env64 M1.jit_code_cache unit3 50) :=
  ⟨_, _, rfl, by decide, rfl, rfl, by decide, by decide, by decide, by decide, by decide⟩

/-- C11: for a unit with zero instructions and an empty compiled pointer,
`rb_iseq_jit_compile` returns -1 leaving the unit and the whole process state
as they were (no protection request and no copy in the trace, free lists and
compiled pointer unchanged), and `vm_exec_jit` returns -1 from line 147 in that
same state: it does not reach the computed `goto`. -/
theorem empty_unit_is_neither_compiled_nor_entered (E : Env) (fuel : Nat) (M : Machine)
    (iseq : rb_iseq_t) (table : List Nat) (end_insns : Nat)
    (hempty : iseq.iseq_size = 0) (hptr : iseq.jit_compiled_iseq = 0) :
    rb_iseq_jit_compile E fuel M iseq table end_insns =
        some (Outcome.returned (-1), M, iseq) ∧
      ∃ d, vm_exec_jit E fuel M iseq table end_insns = some d ∧
        d.outcome = Control.returned (-1) ∧ d.M = M ∧ d.iseq = iseq ∧
        ∀ target, d.outcome ≠ Control.jumped target := by
  have hc := compile_of_failed_allocation E fuel M iseq table end_insns 0 hptr
    (compiled_size_of_empty E fuel iseq table end_insns hempty) (Or.inl rfl)
  refine ⟨hc, ⟨Control.returned (-1), 1, M, iseq⟩, ?_, rfl, rfl, rfl, ?_⟩
  · simp [vm_exec_jit, hptr, hc]
  · intro target h; cases h

/-- Witness of C11: the empty unit dispatched from `machine0`, whose free list
has nodes that would fit. -/
theorem empty_unit_is_neither_compiled_nor_entered_witness :
    rb_iseq_jit_compile env64 0 machine0 unit_empty table3 150 =
        some (Outcome.returned (-1), machine0, unit_empty) ∧
      ∃ d, vm_exec_jit env64 0 machine0 unit_empty table3 150 = some d ∧
        d.outcome = Control.returned (-1) ∧ d.M = machine0 ∧ d.iseq = unit_empty ∧
        ∀ target, d.outcome ≠ Control.jumped target :=
  empty_unit_is_neither_compiled_nor_entered env64 0 machine0 unit_empty table3 150
    (by decide) (by decide)

/-- C13: on every successful allocation the chunk header is placed at the start
of a node of the free list of the region returned, a node that can hold the
request, and the payload pointer stored in the unit is the address right after
that header: node address plus `sizeof(struct rb_jit_code_chunk)`.  Nothing
else of the unit changes, and the region returned keeps its block. -/
theorem allocate_stores_payload_after_header (E : Env) (pool : List rb_jit_code_cache)
    (iseq : rb_iseq_t) (size k : Nat)
    (hret : (rb_iseq_allocate_jit_compiled_iseq E pool iseq size).ret = some k) :
    ∃ cache node, pool[k]? = some cache ∧ node ∈ cache.free_list ∧ size ≤ node.size ∧
      ((rb_iseq_allocate_jit_compiled_iseq E pool iseq size).chunk.map (fun c => c.addr))
        = some node.addr ∧
      (rb_iseq_allocate_jit_compiled_iseq E pool iseq size).iseq =
        { iseq with jit_compiled_iseq := node.addr + E.sizeof_chunk } ∧
      ∃ cache1, (rb_iseq_allocate_jit_compiled_iseq E pool iseq size).pool[k]?
          = some cache1 ∧ cache1.start = cache.start ∧ cache1.size = cache.size := by
  obtain ⟨_, before, cache, after, p, node, q, h1, h2, h3, _, _, h6, h7⟩ :=
    allocate_some E pool iseq size k hret
  refine ⟨cache, node, ?_, by simp [h3], h6, by rw [h7]; rfl, by rw [h7], ?_⟩
  · rw [h1, ← h2]; exact getElem?_append_cons_length before after cache
  · rw [h7, ← h2]
    exact ⟨_, getElem?_append_cons_length before after _, rfl, rfl⟩

/-- Witness of C13: 50 bytes from `pool3`: header at the node 4200, payload 4208. -/
theorem allocate_stores_payload_after_header_witness :
    ∃ cache node, pool3[0]? = some cache ∧ node ∈ cache.free_list ∧ 50 ≤ node.size ∧
      ((rb_iseq_allocate_jit_compiled_iseq env64 pool3 unit3 50).chunk.map
        (fun c => c.addr)) = some node.addr ∧
      (rb_iseq_allocate_jit_compiled_iseq env64 pool3 unit3 50).iseq =
        { unit3 with jit_compiled_iseq := node.addr + env64.sizeof_chunk } ∧
      ∃ cache1, (rb_iseq_allocate_jit_compiled_iseq env64 pool3 unit3 50).pool[0]?
          = some cache1 ∧ cache1.start = cache.start ∧ cache1.size = cache.size :=
  allocate_stores_payload_after_header env64 pool3 unit3 50 0 (by decide)

/-- C14: on every successful allocation of `size` bytes, on a target whose
pointers are as wide as `size_t` (line 61 adds the size of a pointer to the
chunk) and with `size` plus the header size representable in `size_t`, the size
stored in the chunk header is `sizeof(struct rb_jit_code_chunk)` plus `size`. -/
theorem chunk_header_records_header_plus_payload (E : Env)
    (pool : List rb_jit_code_cache) (iseq : rb_iseq_t) (size k : Nat)
    (hret : (rb_iseq_allocate_jit_compiled_iseq E pool iseq size).ret = some k)
    (hsame : E.sizeof_ptr = E.sizeof_chunk)
    (hwrap : size + E.sizeof_chunk < E.SIZE_MOD) :
    ∃ c, (rb_iseq_allocate_jit_compiled_iseq E pool iseq size).chunk = some c ∧
      c.size = E.sizeof_chunk + size ∧
      (rb_iseq_allocate_jit_compiled_iseq E pool iseq size).iseq.jit_compiled_iseq =
        c.addr + E.sizeof_chunk := by
  obtain ⟨_, before, cache, after, p, node, q, _, _, _, _, _, _, h7⟩ :=
    allocate_some E pool iseq size k hret
  rw [h7]
  refine ⟨_, rfl, ?_, rfl⟩
  simp only [hsame, Nat.mod_eq_of_lt hwrap]
  omega

/-- Witness of C14: 50 bytes from `pool3` on the 64-bit target: the header
records 58. -/
theorem chunk_header_records_header_plus_payload_witness :
    ∃ c, (rb_iseq_allocate_jit_compiled_iseq env64 pool3 unit3 50).chunk = some c ∧
      c.size = env64.sizeof_chunk + 50 ∧
      (rb_iseq_allocate_jit_compiled_iseq env64 pool3 unit3 50).iseq.jit_compiled_iseq =
        c.addr + env64.sizeof_chunk :=
  chunk_header_records_header_plus_payload env64 pool3 unit3 50 0
    (by decide) (by decide) (by decide)

/-- C15: a request of size 0 returns the null region without any search: for
every pool, whatever its nodes, the pool and the unit (its compiled pointer
included) are returned as they were and no chunk header is written. -/
theorem allocate_zero_is_no_allocation (E : Env) (pool : List rb_jit_code_cache)
    (iseq : rb_iseq_t) :
    rb_iseq_allocate_jit_compiled_iseq E pool iseq 0 =
      { ret := none, pool := pool, iseq := iseq, chunk := none } := by
  simp [rb_iseq_allocate_jit_compiled_iseq]

/-- C16 as stated fails: asked for 128 bytes, the allocator selects the node of
size 128 at 4200, although 128 is less than the request plus the 8-byte chunk
header; the node is not skipped. -/
theorem near_fit_node_is_selected :
    (⟨4200, 128⟩ : rb_jit_free_list) ∈ all_nodes pool3 ∧
      128 < 128 + env64.sizeof_chunk ∧
      (rb_iseq_allocate_jit_compiled_iseq env64 pool3 unit3 128).ret = some 0 ∧
      (rb_iseq_allocate_jit_compiled_iseq env64 pool3 unit3 128).chunk
        = some ⟨4200, 136⟩ := by
  decide

/-- C16, amended: the fit threshold is the request itself (line 54).  For a
request `size > 0` the allocator succeeds exactly when some node of the pool
has a size of at least `size`, and the node it then selects has a size of at
least `size` while every node before it, in pool order and then free-list
order, is smaller than `size`: no node that reaches the request is skipped,
whether or not it reaches the request plus the chunk-header size. -/
theorem fit_threshold_is_request_size (E : Env) (pool : List rb_jit_code_cache)
    (iseq : rb_iseq_t) (size : Nat) (hsize : 0 < size) :
    ((∃ m ∈ all_nodes pool, size ≤ m.size) ↔
        ∃ k, (rb_iseq_allocate_jit_compiled_iseq E pool iseq size).ret = some k) ∧
      ∀ k, (rb_iseq_allocate_jit_compiled_iseq E pool iseq size).ret = some k →
        ∃ pre node post, all_nodes pool = pre ++ node :: post ∧
          (∀ m ∈ pre, m.size < size) ∧ size ≤ node.size ∧
          ((rb_iseq_allocate_jit_compiled_iseq E pool iseq size).chunk.map
            (fun c => c.addr)) = some node.addr := by
  have hsel : ∀ k, (rb_iseq_allocate_jit_compiled_iseq E pool iseq size).ret = some k →
      ∃ pre node post, all_nodes pool = pre ++ node :: post ∧
        (∀ m ∈ pre, m.size < size) ∧ size ≤ node.size ∧
        ((rb_iseq_allocate_jit_compiled_iseq E pool iseq size).chunk.map
          (fun c => c.addr)) = some node.addr := by
    intro k hret
    obtain ⟨_, before, cache, after, p, node, q, h1, _, h3, h4, h5, h6, h7⟩ :=
      allocate_some E pool iseq size k hret
    refine ⟨all_nodes before ++ p, node, q ++ all_nodes after, ?_, ?_, h6, ?_⟩
    · rw [h1, all_nodes_append]; simp [all_nodes, h3]
    · intro m hm
      rcases List.mem_append.mp hm with hm | hm
      · exact (no_fit_all_nodes size before).mp h4 m hm
      · exact h5 m hm
    · rw [h7]; rfl
  refine ⟨⟨?_, ?_⟩, hsel⟩
  · rintro ⟨m, hm, hms⟩
    cases hr : (rb_iseq_allocate_jit_compiled_iseq E pool iseq size).ret with
    | some k => exact ⟨k, rfl⟩
    | none =>
      have hnf := allocate_ret_none_no_fit E pool iseq size hsize hr
      have := (no_fit_all_nodes size pool).mp hnf m hm
      omega
  · rintro ⟨k, hret⟩
    obtain ⟨pre, node, post, h1, _, h3, _⟩ := hsel k hret
    exact ⟨node, by rw [h1]; simp, h3⟩

/-- Witness of C16, amended: a request of 128 bytes from `pool3`. -/
theorem fit_threshold_is_request_size_witness :
    ((∃ m ∈ all_nodes pool3, 128 ≤ m.size) ↔
        ∃ k, (rb_iseq_allocate_jit_compiled_iseq env64 pool3 unit3 128).ret = some k) ∧
      ∀ k, (rb_iseq_allocate_jit_compiled_iseq env64 pool3 unit3 128).ret = some k →
        ∃ pre node post, all_nodes pool3 = pre ++ node :: post ∧
          (∀ m ∈ pre, m.size < 128) ∧ 128 ≤ node.size ∧
          ((rb_iseq_allocate_jit_compiled_iseq env64 pool3 unit3 128).chunk.map
            (fun c => c.addr)) = some node.addr :=
  fit_threshold_is_request_size env64 pool3 unit3 128 (by decide)

/-- C17, at an input where the code breaks it: from a pool whose only free node
has 100 bytes at 4096, an allocation of 10 bytes (100 > 10 + 8) puts the chunk
header at 4096 and the payload at 4104, and the free list afterwards still has
one node, at 4096 itself, showing size 18: the node lies on the allocated chunk
and does not describe the remainder of the old span. -/
theorem oversized_node_is_not_shrunk :
    (rb_iseq_allocate_jit_compiled_iseq env64 pool1 unit3 10).ret = some 0 ∧
      (rb_iseq_allocate_jit_compiled_iseq env64 pool1 unit3 10).chunk
        = some ⟨4096, 18⟩ ∧
      (rb_iseq_allocate_jit_compiled_iseq env64 pool1 unit3 10).iseq.jit_compiled_iseq
        = 4104 ∧
      (rb_iseq_allocate_jit_compiled_iseq env64 pool1 unit3 10).pool
        = [{ start := 4096, size := 4096, free_list := [⟨4096, 18⟩] }] := by
  decide

/-- C18: for every pool and request the allocator keeps the number and order of
the regions and the block of each; the free list of every region other than
the one it returns is unchanged, and when it returns no region the whole pool
is unchanged. -/
theorem allocate_changes_only_returned_region (E : Env) (pool : List rb_jit_code_cache)
    (iseq : rb_iseq_t) (size : Nat) :
    (rb_iseq_allocate_jit_compiled_iseq E pool iseq size).pool.length = pool.length ∧
      (∀ j : Nat, (rb_iseq_allocate_jit_compiled_iseq E pool iseq size).ret ≠ some j →
        (rb_iseq_allocate_jit_compiled_iseq E pool iseq size).pool[j]? = pool[j]?) ∧
      (∀ (j : Nat) (c c1 : rb_jit_code_cache), pool[j]? = some c →
        (rb_iseq_allocate_jit_compiled_iseq E pool iseq size).pool[j]? = some c1 →
        c1.start = c.start ∧ c1.size = c.size) ∧
      ((rb_iseq_allocate_jit_compiled_iseq E pool iseq size).ret = none →
        (rb_iseq_allocate_jit_compiled_iseq E pool iseq size).pool = pool) := by
  cases hr : (rb_iseq_allocate_jit_compiled_iseq E pool iseq size).ret with
  | none =>
    have h := allocate_ret_none E pool iseq size hr
    rw [h]
    refine ⟨rfl, fun _ _ => rfl, ?_, fun _ => rfl⟩
    intro j c c1 h1 h2
    simp only at h2
    rw [h1] at h2
    cases h2
    exact ⟨rfl, rfl⟩
  | some k =>
    obtain ⟨_, before, cache, after, p, node, q, h1, h2, _, _, _, _, h7⟩ :=
      allocate_some E pool iseq size k hr
    rw [h7, h1]
    refine ⟨by simp, ?_, ?_, ?_⟩
    · intro j hj
      exact getElem?_append_cons_ne before after _ _ j
        (fun h => hj (by rw [h, h2]))
    · intro j c c1 hc hc1
      simp only at hc1
      by_cases hj : j = before.length
      · rw [hj, getElem?_append_cons_length] at hc hc1
        cases hc; cases hc1
        exact ⟨rfl, rfl⟩
      · rw [getElem?_append_cons_ne before after _ cache j hj, hc] at hc1
        cases hc1
        exact ⟨rfl, rfl⟩
    · intro h; cases h

/-- C19: for a unit all of whose instruction starts hold an opcode with
`insn_len` at least one, the walk has at most `iseq_size` instructions, and
the loops of `rb_iseq_jit_compiled_size` and of `rb_iseq_jit_compile` never use
more than `iseq_size` iterations: with any larger fuel they give what they give
with fuel `iseq_size`, and that is a result as soon as the reads are inside the
unit and the table (and, for the copies, no template ends before it starts).
The allocator's search is a recursion over the finite lists of regions and
nodes, and the number of nodes it examines is at most the number of nodes of
the pool: no node is examined twice and nothing is retried. -/
theorem walks_and_search_terminate (E : Env) (iseq : rb_iseq_t) (table : List Nat)
    (end_insns : Nat)
    (hlen : ∀ i ∈ instruction_starts E iseq, 1 ≤ E.insn_len (opcode_at iseq i)) :
    (instruction_starts E iseq).length ≤ iseq.iseq_size ∧
      (∀ fuel, iseq.iseq_size ≤ fuel →
        rb_iseq_jit_compiled_size E fuel iseq table end_insns =
          rb_iseq_jit_compiled_size E iseq.iseq_size iseq table end_insns) ∧
      (∀ (fuel code : Nat) (M : Machine), iseq.iseq_size ≤ fuel →
        copy_loop E iseq table end_insns fuel 0 code M =
          copy_loop E iseq table end_insns iseq.iseq_size 0 code M) ∧
      (E.VM_INSTRUCTION_SIZE ≤ table.length →
        (∀ i ∈ instruction_starts E iseq,
          i < iseq.iseq.length ∧ opcode_at iseq i < E.VM_INSTRUCTION_SIZE) →
        (∃ size, rb_iseq_jit_compiled_size E iseq.iseq_size iseq table end_insns
            = some size) ∧
          ((∀ i ∈ instruction_starts E iseq,
              0 ≤ template_length E table end_insns (opcode_at iseq i)) →
            ∀ (code : Nat) (M : Machine), ∃ r,
              copy_loop E iseq table end_insns iseq.iseq_size 0 code M = some r)) ∧
      ∀ (size : Nat) (pool : List rb_jit_code_cache),
        scan_caches_steps E size pool ≤ (all_nodes pool).length := by
  refine ⟨starts_from_length E iseq _ _, ?_, ?_, ?_, ?_⟩
  · intro fuel hfuel
    exact compiled_size_loop_stable E iseq table end_insns iseq.iseq_size fuel 0 0
      (by omega) hfuel hlen
  · intro fuel code M hfuel
    exact copy_loop_stable E iseq table end_insns iseq.iseq_size fuel 0 code M
      (by omega) hfuel hlen
  · intro htab hread
    have hvalid : ∀ i ∈ instruction_starts E iseq, valid_start E iseq i :=
      fun i hi => ⟨(hread i hi).1, (hread i hi).2, hlen i hi⟩
    refine ⟨⟨_, compiled_size_value E iseq table end_insns iseq.iseq_size htab hvalid
      (le_refl _)⟩, ?_⟩
    intro hnn code M
    exact ⟨_, copy_loop_eq E iseq table end_insns htab iseq.iseq_size iseq.iseq_size 0 code M
      (by omega) (le_refl _) (fun j hj => ⟨hvalid j hj, hnn j hj⟩)⟩
  · intro size pool
    exact scan_caches_steps_le E size pool

/-- Witness of C19: `unit3`, three instructions in six slots. -/
theorem walks_and_search_terminate_witness :
    (instruction_starts env64 unit3).length ≤ unit3.iseq_size ∧
      (∀ fuel, unit3.iseq_size ≤ fuel →
        rb_iseq_jit_compiled_size env64 fuel unit3 table3 150 =
          rb_iseq_jit_compiled_size env64 unit3.iseq_size unit3 table3 150) ∧
      (∀ (fuel code : Nat) (M : Machine), unit3.iseq_size ≤ fuel →
        copy_loop env64 unit3 table3 150 fuel 0 code M =
          copy_loop env64 unit3 table3 150 unit3.iseq_size 0 code M) ∧
      (env64.VM_INSTRUCTION_SIZE ≤ table3.length →
        (∀ i ∈ instruction_starts env64 unit3,
          i < unit3.iseq.length ∧ opcode_at unit3 i < env64.VM_INSTRUCTION_SIZE) →
        (∃ size, rb_iseq_jit_compiled_size env64 unit3.iseq_size unit3 table3 150
            = some size) ∧
          ((∀ i ∈ instruction_starts env64 unit3,
              0 ≤ template_length env64 table3 150 (opcode_at unit3 i)) →
            ∀ (code : Nat) (M : Machine), ∃ r,
              copy_loop env64 unit3 table3 150 unit3.iseq_size 0 code M = some r)) ∧
      ∀ (size : Nat) (pool : List rb_jit_code_cache),
        scan_caches_steps env64 size pool ≤ (all_nodes pool).length :=
  walks_and_search_terminate env64 unit3 table3 150 (by decide)

/-- C20: on every successful allocation of `size` bytes the chunk, header and
payload, starts at the address of a node of the region returned and fits in the
node: with the node's size counting the bytes after the node header (a `size_t`
and a pointer), chunk-header size plus `size` is at most node-header size plus
node size; so, where the node lies inside its region, the chunk
`[node address, node address + chunk-header size + size)` does too. -/
theorem allocated_chunk_lies_in_node (E : Env) (pool : List rb_jit_code_cache)
    (iseq : rb_iseq_t) (size k : Nat)
    (hret : (rb_iseq_allocate_jit_compiled_iseq E pool iseq size).ret = some k) :
    ∃ cache node, pool[k]? = some cache ∧ node ∈ cache.free_list ∧
      ((rb_iseq_allocate_jit_compiled_iseq E pool iseq size).chunk.map (fun c => c.addr))
        = some node.addr ∧
      (rb_iseq_allocate_jit_compiled_iseq E pool iseq size).iseq.jit_compiled_iseq =
        node.addr + E.sizeof_chunk ∧
      E.sizeof_chunk + size ≤ E.sizeof_free_list + node.size ∧
      (nodes_in_region E cache →
        cache.start ≤ node.addr ∧
          node.addr + E.sizeof_chunk + size ≤ cache.start + cache.size) := by
  obtain ⟨_, before, cache, after, p, node, q, h1, h2, h3, _, _, h6, h7⟩ :=
    allocate_some E pool iseq size k hret
  have hmem : node ∈ cache.free_list := by simp [h3]
  have hfit : E.sizeof_chunk + size ≤ E.sizeof_free_list + node.size := by
    unfold Env.sizeof_chunk Env.sizeof_free_list; omega
  refine ⟨cache, node, ?_, hmem, by rw [h7]; rfl, by rw [h7], hfit, ?_⟩
  · rw [h1, ← h2]; exact getElem?_append_cons_length before after cache
  · intro hwf
    obtain ⟨g1, g2⟩ := hwf node hmem
    exact ⟨g1, by omega⟩

/-- Witness of C20: 50 bytes from `pool3`, whose nodes lie inside the region. -/
theorem allocated_chunk_lies_in_node_witness :
    (∀ cache ∈ pool3, nodes_in_region env64 cache) ∧
    ∃ cache node, pool3[0]? = some cache ∧ node ∈ cache.free_list ∧
      ((rb_iseq_allocate_jit_compiled_iseq env64 pool3 unit3 50).chunk.map
        (fun c => c.addr)) = some node.addr ∧
      (rb_iseq_allocate_jit_compiled_iseq env64 pool3 unit3 50).iseq.jit_compiled_iseq =
        node.addr + env64.sizeof_chunk ∧
      env64.sizeof_chunk + 50 ≤ env64.sizeof_free_list + node.size ∧
      (nodes_in_region env64 cache →
        cache.start ≤ node.addr ∧
          node.addr + env64.sizeof_chunk + 50 ≤ cache.start + cache.size) :=
  ⟨by decide, allocated_chunk_lies_in_node env64 pool3 unit3 50 0 (by decide)⟩

end BasicJit
